import Mathlib

/-!
Verification development for the CPE-DB repository (`cpe_updater.py`,
`csv_cpe_matcher.py`, `cpe_search_client.py`).

The Python sources are shallowly embedded below.  Python strings are
modelled as Lean `String`, but all string surgery is performed on the
underlying `List Char` (`String.data`) so that every definition is
executable and kernel-reducible.  Python dictionaries keyed by CPE name
are modelled as association lists (`List (String × CPEEntry)`); the
well-formedness predicate `wfSnapshot` records the dictionary invariants
(unique keys, key equals the entry's `cpeName`), exactly the invariants
the Python code establishes when it builds `entries[entry.cpeName] = entry`.
Iteration over Python sets of keys is modelled by iterating the
association lists in order; all verified claims are insensitive to that
order (they speak about membership and counts).

External effects (Elasticsearch queries, file IO, the NVD download) are
modelled as oracle parameters: a search backend is a function
`String → Option SearchResults`, where `none` is the "absent result on
backend failure" produced by `_execute_search`'s exception handler.
-/

set_option maxRecDepth 4096
set_option linter.unusedVariables false

/-! ### Character-list string helpers (Python string primitives) -/

/-- Python `s.split(sep)` for a single-character separator: splits at every
occurrence, keeping empty chunks, so that `split "" = [""]`. -/
def splitChar (sep : Char) : List Char → List (List Char)
  | [] => [[]]
  | c :: cs =>
    if c = sep then [] :: splitChar sep cs
    else
      match splitChar sep cs with
      | [] => [[c]]
      | h :: t => (c :: h) :: t

/-- Python `sep.join(parts)` for a single-character separator. -/
def joinChar (sep : Char) (parts : List (List Char)) : List Char :=
  List.intercalate [sep] parts

/-- Python `cpe_name.split(':')`, returning Lean strings. -/
def pySplitColon (s : String) : List String :=
  (splitChar ':' s.data).map String.mk

/-- Python `':'.join(parts)`. -/
def joinColon (parts : List String) : String :=
  String.mk (joinChar ':' (parts.map String.data))

/-- Python `'|'.join(parts)`. -/
def joinBar (parts : List String) : String :=
  String.mk (List.intercalate ['|'] (parts.map String.data))

/-- The characters removed by Python `str.strip()` (ASCII whitespace). -/
def isPyWhitespace (c : Char) : Bool :=
  c = ' ' || c = '\t' || c = '\n' || c = '\r' || c = '\x0b' || c = '\x0c'

/-- Python `s.strip()`. -/
def pyStrip (s : String) : String :=
  String.mk (((s.data.dropWhile isPyWhitespace).reverse.dropWhile isPyWhitespace).reverse)

/-- Lexicographic comparison of character lists by code point, as Python
compares strings. -/
def lexLe : List Char → List Char → Bool
  | [], _ => true
  | _ :: _, [] => false
  | a :: as, b :: bs =>
    if a.toNat < b.toNat then true
    else if b.toNat < a.toNat then false
    else lexLe as bs

/-- Python `s1 <= s2` on strings (used by `sorted`). -/
def pyLe (a b : String) : Bool := lexLe a.data b.data

/-- Insert into a `pyLe`-sorted list, keeping it sorted. -/
def insertSorted (v : String) : List String → List String
  | [] => [v]
  | x :: xs => if pyLe v x then v :: x :: xs else x :: insertSorted v xs

/-- Python `sorted(l)` on strings: ascending by code points.  (Insertion
sort; `pyLe` is a total order on strings, so the result is the unique
sorted arrangement Python's sort produces.) -/
def pySort (l : List String) : List String := l.foldr insertSorted []

/-! ### Data model of `cpe_updater.py` -/

/-- One element of a CPE entry's `titles` list (`{"title": …, "lang": …}`). -/
structure Title where
  title : String
  lang : String
  deriving DecidableEq, Repr

/-- One element of a CPE entry's `refs` list (`{"ref": …, "type": …}`). -/
structure Ref where
  ref : String
  type : String
  deriving DecidableEq, Repr

/-- `CPEEntry` dataclass of `cpe_updater.py`. -/
structure CPEEntry where
  cpeName : String
  cpeNameId : String
  created : String
  lastModified : String
  deprecated : Bool
  titles : List Title
  refs : List Ref
  deriving DecidableEq, Repr

/-- A snapshot: the `Dict[str, CPEEntry]` built by the loaders, as an
association list. -/
abbrev Snapshot := List (String × CPEEntry)

/-- Dictionary lookup `entries[k]` / `k in entries`. -/
def lookupEntry (s : Snapshot) (k : String) : Option CPEEntry :=
  (List.find? (fun p => p.1 = k) s).map Prod.snd

/-- The loaders build `entries[entry.cpeName] = entry`, so a snapshot has
unique keys and every key equals its entry's `cpeName`. -/
abbrev wfSnapshot (s : Snapshot) : Prop :=
  (s.map Prod.fst).Nodup ∧ ∀ p ∈ s, p.1 = p.2.cpeName

/-- `UpdateStats` dataclass. -/
structure UpdateStats where
  total_old : Nat := 0
  total_new : Nat := 0
  added : Nat := 0
  modified : Nat := 0
  deprecated : Nat := 0
  unchanged : Nat := 0
  deriving DecidableEq, Repr

/-- The modification test of `generate_diff` (`cpe_updater.py` lines
185-188): any of the four tracked fields differs.  List comparison of
`titles`/`refs` is Python `!=`, i.e. order-sensitive deep equality. -/
def isModifiedEntry (o n : CPEEntry) : Bool :=
  decide (o.lastModified ≠ n.lastModified ∨ o.deprecated ≠ n.deprecated ∨
          o.titles ≠ n.titles ∨ o.refs ≠ n.refs)

/-- The `changes` dictionary built by `_get_field_changes`. -/
structure FieldChanges where
  lastModified : Option (String × String)
  deprecated : Option (Bool × Bool)
  titles : Option (List Title × List Title)
  refs : Option (List Ref × List Ref)
  deriving DecidableEq, Repr

/-- `_get_field_changes` of `cpe_updater.py`. -/
def get_field_changes (o n : CPEEntry) : FieldChanges where
  lastModified := if o.lastModified ≠ n.lastModified then some (o.lastModified, n.lastModified) else none
  deprecated := if o.deprecated ≠ n.deprecated then some (o.deprecated, n.deprecated) else none
  titles := if o.titles ≠ n.titles then some (o.titles, n.titles) else none
  refs := if o.refs ≠ n.refs then some (o.refs, n.refs) else none

/-- One element of `diff_data['modified']`. -/
structure Modification where
  cpeName : String
  old : CPEEntry
  new : CPEEntry
  changes : FieldChanges
  deriving DecidableEq, Repr

/-- The `diff_data` dictionary of `generate_diff`. -/
structure DiffData where
  added : List CPEEntry
  modified : List Modification
  deprecated : List CPEEntry
  removed : List CPEEntry
  unchanged : List CPEEntry
  deriving DecidableEq, Repr

/-- The common keys of the two snapshots together with their old and new
entries (`common_cpes = old_cpes & new_cpes`), iterated in the order of
the new snapshot. -/
def commonTriples (old new : Snapshot) : List (String × CPEEntry × CPEEntry) :=
  new.filterMap (fun p => (lookupEntry old p.1).map (fun o => (p.1, o, p.2)))

/-- `generate_diff` of `cpe_updater.py` (lines 145-207).  Set differences
and intersections of the key sets are realised by filtering the
association lists; each category list is built exactly as in the source
(`added`/`removed` collect entry dicts, a common key goes to `modified`
when `isModifiedEntry` holds and to `unchanged` otherwise, and a modified
key is additionally appended to `deprecated` when the flag flips
false → true), and the stats count the appends. -/
def generate_diff (old new : Snapshot) : DiffData × UpdateStats :=
  let addedEntries := (new.filter (fun p => (lookupEntry old p.1).isNone)).map Prod.snd
  let removedEntries := (old.filter (fun p => (lookupEntry new p.1).isNone)).map Prod.snd
  let common := commonTriples old new
  let modifiedList := (common.filter (fun t => isModifiedEntry t.2.1 t.2.2)).map
    (fun t => Modification.mk t.1 t.2.1 t.2.2 (get_field_changes t.2.1 t.2.2))
  let deprecatedList := ((common.filter (fun t => isModifiedEntry t.2.1 t.2.2)).filter
    (fun t => !t.2.1.deprecated && t.2.2.deprecated)).map (fun t => t.2.2)
  let unchangedList := (common.filter (fun t => !isModifiedEntry t.2.1 t.2.2)).map (fun t => t.2.2)
  (DiffData.mk addedEntries modifiedList deprecatedList removedEntries unchangedList,
   UpdateStats.mk old.length new.length addedEntries.length modifiedList.length
     deprecatedList.length unchangedList.length)

/-! ### `clean_website_url` of `csv_cpe_matcher.py` and its `urlparse` model -/

/-- Python `url.split(sep, 1)` on character lists: split at the first
occurrence, or return the whole list when the separator is absent. -/
def splitOnceChar (sep : Char) (l : List Char) : List Char × List Char :=
  match l.findIdx? (fun c => c = sep) with
  | some i => (l.take i, l.drop (i + 1))
  | none => (l, [])

/-- CPython `urllib.parse.scheme_chars` membership (ASCII letters, digits,
`+`, `-`, `.`). -/
def schemeChar (c : Char) : Bool :=
  c.isAlpha || c.isDigit || c = '+' || c = '-' || c = '.'

/-- The named fields of a CPython `ParseResult`. -/
structure UrlParts where
  scheme : String
  netloc : String
  path : String
  params : String
  query : String
  fragment : String
  deriving DecidableEq, Repr

/-- Model of CPython `urllib.parse.urlsplit` (library code called by
`clean_website_url`, not part of this repository): remove unsafe bytes
(tab, CR, LF), split off a `scheme:` whose head is an ASCII letter and
whose characters are scheme characters, read a `//netloc` up to the next
`/`, `?` or `#` (rejecting netlocs with unbalanced IPv6 brackets), then
split off the fragment after the first `#` and the query after the first
`?` of what remains. -/
def pyUrlsplit (url : String) : Except String (String × String × String × String × String) :=
  let cs := url.data.filter (fun c => !(c = '\t' || c = '\r' || c = '\n'))
  let schemeRest : List Char × List Char :=
    match cs.findIdx? (fun c => c = ':') with
    | some i =>
      if 0 < i ∧ (cs.headD ' ').isAlpha ∧ (cs.take i).all schemeChar then
        ((cs.take i).map Char.toLower, cs.drop (i + 1))
      else ([], cs)
    | none => ([], cs)
  let scheme := schemeRest.1
  let rest := schemeRest.2
  let netlocRest : List Char × List Char :=
    if rest.take 2 = ['/', '/'] then
      let after := rest.drop 2
      let nl := after.takeWhile (fun c => !(c = '/' || c = '?' || c = '#'))
      (nl, after.drop nl.length)
    else ([], rest)
  let netloc := netlocRest.1
  if ('[' ∈ netloc ∧ ']' ∉ netloc) ∨ (']' ∈ netloc ∧ '[' ∉ netloc) then
    .error "Invalid IPv6 URL"
  else
    let fragSplit := splitOnceChar '#' netlocRest.2
    let querySplit := splitOnceChar '?' fragSplit.1
    .ok (String.mk scheme, String.mk netloc, String.mk querySplit.1,
         String.mk querySplit.2, String.mk fragSplit.2)

/-- Python `url.rfind(c)` as an optional index. -/
def rfindIdx (c : Char) (l : List Char) : Option Nat :=
  (l.reverse.findIdx? (fun x => x = c)).map (fun j => l.length - 1 - j)

/-- Model of CPython `urllib.parse._splitparams`: split the path at the
first `;` at or after the last `/` (or the first `;` overall when the
path has no `/`). -/
def pySplitparams (url : List Char) : List Char × List Char :=
  if '/' ∈ url then
    let start := (rfindIdx '/' url).getD 0
    match (url.drop start).findIdx? (fun c => c = ';') with
    | some j => (url.take (start + j), url.drop (start + j + 1))
    | none => (url, [])
  else
    match url.findIdx? (fun c => c = ';') with
    | some i => (url.take i, url.drop (i + 1))
    | none => (url, [])

/-- CPython `urllib.parse.uses_params` membership; both `""` and `"http"`
(the only schemes `clean_website_url` can feed in) use params. -/
def usesParams (scheme : String) : Bool :=
  scheme = "" || scheme = "ftp" || scheme = "hdl" || scheme = "prospero" ||
  scheme = "http" || scheme = "imap" || scheme = "https" || scheme = "shttp" ||
  scheme = "rtsp" || scheme = "rtspu" || scheme = "sip" || scheme = "sips" ||
  scheme = "mms" || scheme = "sftp" || scheme = "tel"

/-- Model of CPython `urllib.parse.urlparse`: `urlsplit` plus the
`;params` split on the path. -/
def pyUrlparse (url : String) : Except String UrlParts :=
  match pyUrlsplit url with
  | .error e => .error e
  | .ok (scheme, netloc, path, query, fragment) =>
    if usesParams scheme ∧ ';' ∈ path.data then
      let pp := pySplitparams path.data
      .ok (UrlParts.mk scheme netloc (String.mk pp.1) (String.mk pp.2) query fragment)
    else
      .ok (UrlParts.mk scheme netloc path "" query fragment)

/-- `re.sub(r'^https?://', '', s)`: remove a leading `https://` (the
greedy `s?`) or else a leading `http://`. -/
def stripHttpScheme (s : String) : String :=
  if "https://".data.isPrefixOf s.data then String.mk (s.data.drop 8)
  else if "http://".data.isPrefixOf s.data then String.mk (s.data.drop 7)
  else s

/-- `clean_website_url` of `csv_cpe_matcher.py` (lines 23-51): strip the
input, drop an `http(s)://` scheme, re-parse with `http://` prepended
unless the remainder already starts with the four characters `http`,
take the netloc (or, when it is empty, the path up to the first slash)
as domain, append the path with trailing slashes removed, and on a
parse error fall back to the text before the first slash. -/
def clean_website_url (website : String) : String :=
  if website = "" then ""
  else
    let cleaned := stripHttpScheme (pyStrip website)
    let parsedE :=
      if ¬ ("http".data.isPrefixOf cleaned.data) then
        pyUrlparse (String.mk ("http://".data ++ cleaned.data))
      else pyUrlparse cleaned
    match parsedE with
    | .error _ => String.mk ((splitChar '/' cleaned.data).headD [])
    | .ok parsed =>
      let domain :=
        if parsed.netloc ≠ "" then parsed.netloc
        else String.mk ((splitChar '/' parsed.path.data).headD [])
      let path := String.mk ((parsed.path.data.reverse.dropWhile (fun c => c = '/')).reverse)
      if path ≠ "" ∧ path ≠ "/" then String.mk (domain.data ++ path.data) else domain

/-! ### `csv_cpe_matcher.py`: CPE component extraction and grouping -/

/-- A raw Elasticsearch hit `_source` as used by the matcher:
`hit.get('cpeName', '')` and `hit.get('deprecated', False)`. -/
structure Hit where
  cpeName : String
  deprecated : Bool
  deriving DecidableEq, Repr

/-- The result dictionary built by `_execute_search`: total count and the
raw hit list. -/
structure SearchResults where
  total : Nat
  hits : List Hit
  deriving DecidableEq, Repr

/-- `extract_cpe_components` (lines 53-68): fixed-position split of
`cpe:2.3:part:vendor:product:version:…`; `None` when the identifier has
fewer than 6 colon-separated components. -/
def extract_cpe_components (cpe_name : String) : Option (String × String × String) :=
  let parts := pySplitColon cpe_name
  if 6 ≤ parts.length then some (parts.getD 3 "", parts.getD 4 "", parts.getD 5 "")
  else none

/-- `normalize_cpe_for_comparison` (lines 70-80): set the version
component (index 5) to `*`. -/
def normalize_cpe_for_comparison (cpe_name : String) : String :=
  let parts := pySplitColon cpe_name
  if 6 ≤ parts.length then joinColon (parts.set 5 "*") else cpe_name

/-- The per-bucket accumulator of `group_cpe_variants`.  Python's `set()`
of version strings is modelled as an insertion-ordered duplicate-free
list. -/
structure GroupData where
  vendor : String
  product : String
  versions : List String
  cpes : List Hit
  sample_cpe : Hit
  deriving DecidableEq, Repr

/-- `groups[group_key]['versions'].add(version)`. -/
def insertVersion (vs : List String) (v : String) : List String :=
  if v ∈ vs then vs else vs ++ [v]

/-- The bucket key `f"{vendor}:{product}"`. -/
def groupKey (vendor product : String) : String :=
  String.mk (vendor.data ++ ':' :: product.data)

/-- Insert one active hit into the bucket map (an insertion-ordered
association list, as a Python dict): a fresh key opens a bucket with the
hit as `sample_cpe`, an existing key accumulates the version and the
hit. -/
def updateGroups (groups : List (String × GroupData)) (key : String)
    (comp : String × String × String) (hit : Hit) : List (String × GroupData) :=
  match groups with
  | [] => [(key, GroupData.mk comp.1 comp.2.1 [comp.2.2] [hit] hit)]
  | (k, g) :: rest =>
    if k = key then
      (k, { g with versions := insertVersion g.versions comp.2.2, cpes := g.cpes ++ [hit] }) :: rest
    else (k, g) :: updateGroups rest key comp hit

/-- The grouping loop of `group_cpe_variants` (lines 96-114); hits whose
identifier yields no components are skipped. -/
def buildGroups (active : List Hit) : List (String × GroupData) :=
  active.foldl
    (fun groups hit =>
      match extract_cpe_components hit.cpeName with
      | none => groups
      | some comp => updateGroups groups (groupKey comp.1 comp.2.1) comp hit)
    []

/-- One result group of `group_cpe_variants`; `found_by` is attached
later by `search_cpe_for_tool` (absent, i.e. `""`, until then). -/
structure MatchGroup where
  normalized_cpe : String
  vendor : String
  product : String
  version_count : Nat
  versions : List String
  all_cpes : List String
  sample_data : Hit
  found_by : String := ""
  deriving DecidableEq, Repr

/-- Conversion of one bucket into a result group (lines 117-145): more
than one distinct version, or a wildcard version, produces one
version-agnostic group (representative = sample with version `*`,
versions sorted ascending); otherwise the single concrete identifier
`group_data['cpes'][0]` (by construction the sample hit) is kept. -/
def finalizeGroup (g : GroupData) : MatchGroup :=
  if 1 < g.versions.length ∨ "*" ∈ g.versions then
    MatchGroup.mk (normalize_cpe_for_comparison g.sample_cpe.cpeName) g.vendor g.product
      g.versions.length (pySort g.versions)
      (g.cpes.map (fun c => c.cpeName)) g.sample_cpe ""
  else
    let cpe_data := g.cpes.headD g.sample_cpe
    MatchGroup.mk cpe_data.cpeName g.vendor g.product 1 g.versions [cpe_data.cpeName] cpe_data ""

/-- `group_cpe_variants` (lines 82-147): absent or hitless results give
`[]`; deprecated hits are filtered out; the remaining hits are bucketed
and each bucket is finalized. -/
def group_cpe_variants (cpe_results : Option SearchResults) : List MatchGroup :=
  match cpe_results with
  | none => []
  | some res =>
    if res.hits = [] then []
    else
      let active := res.hits.filter (fun h => !h.deprecated)
      if active = [] then []
      else (buildGroups active).map (fun p => finalizeGroup p.2)

/-! ### `cpe_search_client.py` -/

/-- Shape of the `total` field of an Elasticsearch response: newer
backends return a dict with a `value` field, older ones a bare integer;
`_execute_search` (lines 372-375) accepts both. -/
inductive ESTotal
  | ofDict (value : Nat)
  | ofInt (value : Nat)
  deriving DecidableEq, Repr

/-- A raw Elasticsearch hit wrapper (`hit["_source"]`). -/
structure ESHit where
  source : Hit
  deriving DecidableEq, Repr

/-- The `response["hits"]` object of a successful backend call. -/
structure ESResponse where
  total : ESTotal
  hits : List ESHit
  deriving DecidableEq, Repr

/-- `_execute_search` of `cpe_search_client.py` (lines 363-391).  The
backend call `self.es.search(...)` either raises (modelled as
`Except.error`) or returns a response; an exception is caught and turned
into an absent (`none`) result, a response is turned into the
`{total, hits}` result dictionary. -/
def «_execute_search» (resp : Except String ESResponse) : Option SearchResults :=
  match resp with
  | .error _ => none
  | .ok r =>
    some (SearchResults.mk
      (match r.total with
       | .ofDict v => v
       | .ofInt v => v)
      (r.hits.map (fun h => h.source)))

/-- The two query tiers issued by `search_by_tool_name`: the exact
(phrase + keyword-term) query and the fuzzy fallback query. -/
inductive QueryTier
  | exact
  | fuzzy
  deriving DecidableEq, Repr

/-- `search_by_tool_name` of `cpe_search_client.py` (lines 17-112).  The
Elasticsearch backend is the oracle `exec` giving each tier's
`_execute_search` outcome; the Python function builds the tier-1 query,
executes it, returns its result when it exists and reports a positive
`total`, and otherwise builds and executes the tier-2 fuzzy query.  The
second component records which query tiers were actually issued. -/
def search_by_tool_name (exec : QueryTier → Option SearchResults) :
    Option SearchResults × List QueryTier :=
  let exact_results := exec QueryTier.exact
  match exact_results with
  | some r =>
    if 0 < r.total then (some r, [QueryTier.exact])
    else (exec QueryTier.fuzzy, [QueryTier.exact, QueryTier.fuzzy])
  | none => (exec QueryTier.fuzzy, [QueryTier.exact, QueryTier.fuzzy])

/-- The `total` the tier-1 query reports to `search_by_tool_name`'s
guard `exact_results and exact_results.get('total', 0) > 0`: an absent
result counts as zero. -/
def tier1Total (exec : QueryTier → Option SearchResults) : Nat :=
  match exec QueryTier.exact with
  | none => 0
  | some r => r.total

/-! ### `search_cpe_for_tool` of `csv_cpe_matcher.py` -/

/-- The `results` dictionary of `search_cpe_for_tool`. -/
structure ToolSearchResults where
  by_name : List MatchGroup
  by_website : List MatchGroup
  combined : List MatchGroup
  deriving DecidableEq, Repr

/-- The name-search half of `search_cpe_for_tool` (lines 169-179),
entered when the website search did not settle the row: with a nonempty
tool name and a present, hit-carrying name result, group the hits, tag
every group `found_by = 'name'`, and publish them as `combined`. -/
def nameBranch (nameSearch : String → Option SearchResults) (tool_name : String)
    (base : ToolSearchResults) : ToolSearchResults :=
  if tool_name ≠ "" then
    match nameSearch tool_name with
    | some nr =>
      if nr.hits ≠ [] then
        let gs := (group_cpe_variants (some nr)).map (fun g => { g with found_by := "name" })
        { base with by_name := gs, combined := gs }
      else base
    | none => base
  else base

/-- `search_cpe_for_tool` of `csv_cpe_matcher.py` (lines 149-185).  The
two backend searches are oracles (`websiteSearch` is
`search_by_website(…, size=50)` after URL cleaning, `nameSearch` is
`search_by_tool_name(…, size=50)`), each returning `none` on backend
failure.  With a website present, a present hit-carrying website result
whose grouping is nonempty is tagged `found_by = 'website'` and returned
at once; every other outcome falls through to the name branch. -/
def search_cpe_for_tool (websiteSearch nameSearch : String → Option SearchResults)
    (tool_name website : String) : ToolSearchResults :=
  let results0 : ToolSearchResults := ToolSearchResults.mk [] [] []
  if website ≠ "" then
    match websiteSearch (clean_website_url website) with
    | some wr =>
      if wr.hits ≠ [] then
        let wgs := group_cpe_variants (some wr)
        if wgs ≠ [] then
          let tagged := wgs.map (fun g => { g with found_by := "website" })
          ToolSearchResults.mk [] tagged tagged
        else nameBranch nameSearch tool_name { results0 with by_website := wgs }
      else nameBranch nameSearch tool_name results0
    | none => nameBranch nameSearch tool_name results0
  else nameBranch nameSearch tool_name results0

/-- The groups the website search contributes for a row: absent result
or no hits give none (`group_cpe_variants` already returns `[]` for an
absent or hitless result). -/
def websiteGroups (websiteSearch : String → Option SearchResults) (website : String) :
    List MatchGroup :=
  group_cpe_variants (websiteSearch (clean_website_url website))

/-- The tagged groups the name branch publishes as `combined` (starting
from the empty `results` dictionary). -/
def nameGroups (nameSearch : String → Option SearchResults) (tool_name : String) :
    List MatchGroup :=
  if tool_name ≠ "" then
    match nameSearch tool_name with
    | some nr =>
      if nr.hits ≠ [] then
        (group_cpe_variants (some nr)).map (fun g => { g with found_by := "name" })
      else []
    | none => []
  else []

/-! ### `update_database` of `cpe_updater.py` -/

/-- The parts of `update_database`'s result dictionary the claims are
about (`success`, `error`, and the generated diff, `None` when diff
generation was skipped). -/
structure UpdateResult where
  success : Bool
  error : Option String
  diff : Option (DiffData × UpdateStats)
  deriving DecidableEq, Repr

/-- `update_database` of `cpe_updater.py` (lines 308-400), with every
external effect an oracle argument: `backupResult` is the combined
outcome of `create_backup` + `load_cpe_entries_from_backup` (`none` when
`create_backup` failed and returned `None`), `downloadOk` the outcome of
`download_and_extract`, `jsonFilesPresent` whether `get_json_files`
found files, `newEntries` the entries loaded from them, `deleteIndexOk`
and `createIndexOk` the index recreation outcomes (a delete failure only
logs a warning), and `totalIndexed` the number of indexed documents.
Mirrors the control flow: a backup failure is logged and the run
continues with empty `old_entries`; the diff step runs only when
`create_diff` is set **and** `old_entries` is nonempty. -/
def update_database (backupResult : Option Snapshot) (downloadOk : Bool)
    (jsonFilesPresent : Bool) (newEntries : Snapshot)
    (deleteIndexOk createIndexOk : Bool) (totalIndexed : Nat)
    (create_diff : Bool) : UpdateResult :=
  let old_entries : Snapshot := if create_diff then backupResult.getD [] else []
  if ¬ downloadOk then
    UpdateResult.mk false (some "Failed to download latest data") none
  else if ¬ jsonFilesPresent then
    UpdateResult.mk false (some "No JSON files found after download") none
  else
    let diffRes :=
      if create_diff ∧ old_entries ≠ [] then some (generate_diff old_entries newEntries)
      else none
    if ¬ createIndexOk then
      UpdateResult.mk false (some "Failed to recreate index") none
    else if totalIndexed = 0 then
      UpdateResult.mk false (some "Failed to index any documents") none
    else
      UpdateResult.mk true none diffRes

/-! ### `write_results_to_csv` of `csv_cpe_matcher.py` -/

/-- The five cells one match group contributes to an output row. -/
def matchCells (m : MatchGroup) : List String :=
  [m.normalized_cpe, m.vendor, m.product, joinBar m.versions, m.found_by]

/-- One data row written by `write_results_to_csv` (lines 295-314): the
original row, then `match_count` (computed as `len(combined)` in
`process_csv_file`), then exactly five group slots — slot `i` holds the
`i`-th match's cells when it exists and five empty cells otherwise. -/
def write_result_row (original : List String) (cpe_matches : List MatchGroup) : List String :=
  let row := original ++ [toString cpe_matches.length]
  row ++ (List.range 5).flatMap
    (fun i =>
      match cpe_matches.get? i with
      | some m => matchCells m
      | none => ["", "", "", "", ""])

/-- The five blank cells of an unused slot. -/
def blankCells : List String := ["", "", "", "", ""]

/-! ### Helper notions used by the claim statements -/

/-- The raw hits carried by a (possibly absent) search result. -/
def resultHits : Option SearchResults → List Hit
  | none => []
  | some r => r.hits

/-- Keys (CPE names) of the `added` list of a diff. -/
def diffKeysAdded (d : DiffData) : List String := d.added.map (fun e => e.cpeName)

/-- Keys (CPE names) of the `removed` list of a diff. -/
def diffKeysRemoved (d : DiffData) : List String := d.removed.map (fun e => e.cpeName)

/-- Keys of the `modified` list of a diff. -/
def diffKeysModified (d : DiffData) : List String := d.modified.map (fun m => m.cpeName)

/-- Keys (CPE names) of the `unchanged` list of a diff. -/
def diffKeysUnchanged (d : DiffData) : List String := d.unchanged.map (fun e => e.cpeName)

/-- Exactly one of four alternatives holds. -/
abbrev exactlyOneOf (a b c d : Prop) : Prop :=
  (a ∧ ¬b ∧ ¬c ∧ ¬d) ∨ (¬a ∧ b ∧ ¬c ∧ ¬d) ∨ (¬a ∧ ¬b ∧ c ∧ ¬d) ∨ (¬a ∧ ¬b ∧ ¬c ∧ d)

/-- Invariant of one bucket of `group_cpe_variants` relative to the raw
hit list: the sample is the first collected hit, every collected hit is
an active (non-deprecated) input hit whose components match the bucket,
and the version set is exactly the set of versions of the collected
hits. -/
abbrev GDInv (hits : List Hit) (g : GroupData) : Prop :=
  (∃ rest, g.cpes = g.sample_cpe :: rest) ∧
  (∀ h ∈ g.cpes, h ∈ hits ∧ h.deprecated = false ∧
     ∃ v, extract_cpe_components h.cpeName = some (g.vendor, g.product, v) ∧ v ∈ g.versions) ∧
  (∀ v ∈ g.versions, ∃ h ∈ g.cpes, extract_cpe_components h.cpeName = some (g.vendor, g.product, v)) ∧
  g.versions ≠ []

/-- Invariant of the whole bucket map: distinct keys, each key is the
`vendor:product` string of its bucket, each bucket satisfies `GDInv`. -/
abbrev GroupsInv (hits : List Hit) (groups : List (String × GroupData)) : Prop :=
  (groups.map Prod.fst).Nodup ∧
  ∀ p ∈ groups, p.1 = groupKey p.2.vendor p.2.product ∧ GDInv hits p.2

/-- The per-group property claimed for `group_cpe_variants`: every
listed identifier comes from a non-deprecated input hit and parses to
the group's vendor/product with a recorded version; every recorded
version is observed on some listed identifier; the version count is the
number of distinct versions; with several distinct versions or a
wildcard the representative is the sample identifier with its version
component (index 5) set to `*` and the versions are sorted ascending,
otherwise the group carries the single concrete identifier. -/
abbrev GroupOK (hits : List Hit) (mg : MatchGroup) : Prop :=
  mg.all_cpes ≠ [] ∧
  (∀ c ∈ mg.all_cpes,
    (∃ h ∈ hits, h.deprecated = false ∧ h.cpeName = c) ∧
    ∃ v, extract_cpe_components c = some (mg.vendor, mg.product, v) ∧ v ∈ mg.versions) ∧
  (∀ v ∈ mg.versions, ∃ c ∈ mg.all_cpes,
    extract_cpe_components c = some (mg.vendor, mg.product, v)) ∧
  mg.version_count = mg.versions.length ∧
  (if 1 < mg.version_count ∨ "*" ∈ mg.versions then
      6 ≤ (pySplitColon mg.sample_data.cpeName).length ∧
      mg.normalized_cpe = joinColon ((pySplitColon mg.sample_data.cpeName).set 5 "*") ∧
      mg.sample_data.cpeName ∈ mg.all_cpes ∧
      List.Pairwise (fun a b => pyLe a b = true) mg.versions
    else
      mg.version_count = 1 ∧ mg.all_cpes = [mg.normalized_cpe] ∧
      mg.normalized_cpe = mg.sample_data.cpeName)

/-! ### Concrete fixtures for the witnesses -/

def titleEn : Title := Title.mk "Prod one" "en"

def titleFr : Title := Title.mk "Prod un" "fr"

def refSite : Ref := Ref.mk "https://example.com" "Website"

def entA : CPEEntry :=
  CPEEntry.mk "cpe:2.3:a:vend:prod:1.0:*:*:*:*:*:*:*" "id-a" "2020-01-01" "2024-01-01"
    false [titleEn] [refSite]

/-- `entA` with only untracked fields (`cpeNameId`, `created`) changed. -/
def entA2 : CPEEntry := { entA with cpeNameId := "id-a2", created := "2021-05-05" }

def entB : CPEEntry :=
  CPEEntry.mk "cpe:2.3:a:vend:prod:2.0:*:*:*:*:*:*:*" "id-b" "2020-02-02" "2024-02-02"
    false [] []

def entC : CPEEntry :=
  CPEEntry.mk "cpe:2.3:a:vend:prod:3.0:*:*:*:*:*:*:*" "id-c" "2022-03-03" "2024-03-03"
    false [] []

def exOldSnap : Snapshot := [(entA.cpeName, entA), (entB.cpeName, entB)]

def exNewSnap : Snapshot := [(entA.cpeName, entA2), (entC.cpeName, entC)]

def entP1 : CPEEntry :=
  CPEEntry.mk "cpe:2.3:a:vend:perm:1.0:*:*:*:*:*:*:*" "id-p" "2020-01-01" "2024-01-01"
    false [titleEn, titleFr] [refSite]

/-- `entP1` with the same titles in the opposite order. -/
def entP2 : CPEEntry := { entP1 with titles := [titleFr, titleEn] }

def exOldPerm : Snapshot := [(entP1.cpeName, entP1)]

def exNewPerm : Snapshot := [(entP1.cpeName, entP2)]

def hitA : Hit := Hit.mk "cpe:2.3:a:vend:prod:1.0:*:*:*:*:*:*:*" false

def hitB : Hit := Hit.mk "cpe:2.3:a:vend:prod:2.0:*:*:*:*:*:*:*" false

def hitC : Hit := Hit.mk "cpe:2.3:a:other:tool:9.9:*:*:*:*:*:*:*" false

def exRes2 : SearchResults := SearchResults.mk 2 [hitA, hitB]

/-- The single wildcard group expected from `exRes2`. -/
def exGroupStar : MatchGroup :=
  MatchGroup.mk "cpe:2.3:a:vend:prod:*:*:*:*:*:*:*:*" "vend" "prod" 2 ["1.0", "2.0"]
    ["cpe:2.3:a:vend:prod:1.0:*:*:*:*:*:*:*", "cpe:2.3:a:vend:prod:2.0:*:*:*:*:*:*:*"]
    hitA ""

/-- A tier oracle: the exact tier reports three hits, the fuzzy tier
would fail. -/
def exExec : QueryTier → Option SearchResults
  | QueryTier.exact => some (SearchResults.mk 3 [hitA])
  | QueryTier.fuzzy => none

/-- A website-search oracle that always finds `exRes2`. -/
def exWS : String → Option SearchResults := fun _ => some exRes2

/-- A name-search oracle that always finds `hitC`. -/
def exNS : String → Option SearchResults := fun _ => some (SearchResults.mk 1 [hitC])

/-- A name-search oracle that always fails. -/
def exNSfail : String → Option SearchResults := fun _ => none

/-! ### Basic lemmas about lookups and the diff lists -/

theorem length_filter_partition {α : Type} (l : List α) (p : α → Bool) :
    (l.filter p).length + (l.filter (fun a => !p a)).length = l.length := by
  induction l with
  | nil => rfl
  | cons x t ih =>
    by_cases hx : p x = true
    · simp [List.filter_cons, hx]
      omega
    · have hx' : p x = false := by simpa using hx
      simp [List.filter_cons, hx']
      omega

theorem lookupEntry_isSome_iff (s : Snapshot) (k : String) :
    (lookupEntry s k).isSome = true ↔ k ∈ s.map Prod.fst := by
  simp [lookupEntry, List.find?_isSome, List.mem_map]

theorem lookupEntry_eq_none_iff (s : Snapshot) (k : String) :
    lookupEntry s k = none ↔ k ∉ s.map Prod.fst := by
  rw [← lookupEntry_isSome_iff]
  cases lookupEntry s k <;> simp

theorem mem_of_lookupEntry_eq_some {s : Snapshot} {k : String} {n : CPEEntry}
    (h : lookupEntry s k = some n) : (k, n) ∈ s := by
  unfold lookupEntry at h
  obtain ⟨p, hp, hsnd⟩ := Option.map_eq_some'.1 h
  have hk : p.1 = k := by simpa using List.find?_some hp
  have hmem := List.mem_of_find?_eq_some hp
  have hpe : p = (k, n) := by
    cases p
    simp_all
  rwa [hpe] at hmem

theorem lookupEntry_eq_some_of_mem {s : Snapshot} {k : String} {n : CPEEntry}
    (hnd : (s.map Prod.fst).Nodup) (hm : (k, n) ∈ s) : lookupEntry s k = some n := by
  induction s with
  | nil => cases hm
  | cons p t ih =>
    rw [List.map_cons] at hnd
    have hnd' := List.nodup_cons.1 hnd
    rcases List.mem_cons.1 hm with h | h
    · subst h
      simp [lookupEntry, List.find?_cons]
    · have hkt : k ∈ t.map Prod.fst := List.mem_map.2 ⟨(k, n), h, rfl⟩
      have hne : p.1 ≠ k := by
        intro hkp
        rw [hkp] at hnd'
        exact hnd'.1 hkt
      simpa [lookupEntry, List.find?_cons, hne] using ih hnd'.2 h

theorem mem_commonTriples_iff {old new : Snapshot} {k : String} {o n : CPEEntry} :
    (k, o, n) ∈ commonTriples old new ↔ (k, n) ∈ new ∧ lookupEntry old k = some o := by
  simp only [commonTriples, List.mem_filterMap, Option.map_eq_some']
  constructor
  · rintro ⟨p, hp, a, ha, heq⟩
    have h1 : p.1 = k := congrArg Prod.fst heq
    have h2 : a = o := congrArg (fun t => t.2.1) heq
    have h3 : p.2 = n := congrArg (fun t => t.2.2) heq
    refine ⟨?_, by rw [← h1, ha, h2]⟩
    have hpe : p = (k, n) := by
      cases p
      simp_all
    rwa [hpe] at hp
  · rintro ⟨hm, hl⟩
    exact ⟨(k, n), hm, o, hl, rfl⟩

theorem diff_added_eq (old new : Snapshot) :
    (generate_diff old new).1.added
      = (new.filter (fun p => (lookupEntry old p.1).isNone)).map Prod.snd := rfl

theorem diff_removed_eq (old new : Snapshot) :
    (generate_diff old new).1.removed
      = (old.filter (fun p => (lookupEntry new p.1).isNone)).map Prod.snd := rfl

theorem diff_modified_eq (old new : Snapshot) :
    (generate_diff old new).1.modified
      = ((commonTriples old new).filter (fun t => isModifiedEntry t.2.1 t.2.2)).map
          (fun t => Modification.mk t.1 t.2.1 t.2.2 (get_field_changes t.2.1 t.2.2)) := rfl

theorem diff_deprecated_eq (old new : Snapshot) :
    (generate_diff old new).1.deprecated
      = (((commonTriples old new).filter (fun t => isModifiedEntry t.2.1 t.2.2)).filter
          (fun t => !t.2.1.deprecated && t.2.2.deprecated)).map (fun t => t.2.2) := rfl

theorem diff_unchanged_eq (old new : Snapshot) :
    (generate_diff old new).1.unchanged
      = ((commonTriples old new).filter (fun t => !isModifiedEntry t.2.1 t.2.2)).map
          (fun t => t.2.2) := rfl

/-- Identify the common triple found at key `k` with `(k, o, n)`, given
the two lookups and well-formedness of the new snapshot. -/
theorem commonTriple_determined {old new : Snapshot} {k : String} {o n : CPEEntry}
    {t : String × CPEEntry × CPEEntry}
    (hnew : wfSnapshot new) (ho : lookupEntry old k = some o)
    (hn : lookupEntry new k = some n) (htC : t ∈ commonTriples old new)
    (hteq : t.2.2 = n) : t = (k, o, n) := by
  have hc := mem_commonTriples_iff.1 (show (t.1, t.2.1, t.2.2) ∈ commonTriples old new from htC)
  have hk1 : t.1 = t.2.2.cpeName := hnew.2 _ hc.1
  have hk : k = n.cpeName := hnew.2 _ (mem_of_lookupEntry_eq_some hn)
  have ht1k : t.1 = k := by rw [hk1, hteq, ← hk]
  have ho' : t.2.1 = o := by
    have h2 := hc.2
    rw [ht1k] at h2
    exact Option.some.inj (h2.symm.trans ho)
  calc t = (t.1, t.2.1, t.2.2) := rfl
    _ = (k, o, n) := by rw [ht1k, ho', hteq]

theorem mem_unchanged_iff {old new : Snapshot} {k : String} {o n : CPEEntry}
    (hnew : wfSnapshot new) (ho : lookupEntry old k = some o)
    (hn : lookupEntry new k = some n) :
    n ∈ (generate_diff old new).1.unchanged ↔ isModifiedEntry o n = false := by
  rw [diff_unchanged_eq]
  constructor
  · intro hmem
    obtain ⟨t, ht, hteq⟩ := List.mem_map.1 hmem
    obtain ⟨htC, hcond⟩ := List.mem_filter.1 ht
    have hte := commonTriple_determined hnew ho hn htC hteq
    rw [hte] at hcond
    simpa using hcond
  · intro hmod
    refine List.mem_map.2 ⟨(k, o, n), List.mem_filter.2 ⟨?_, by simp [hmod]⟩, rfl⟩
    exact mem_commonTriples_iff.2 ⟨mem_of_lookupEntry_eq_some hn, ho⟩

theorem mem_modified_iff {old new : Snapshot} {k : String} {o n : CPEEntry}
    (ho : lookupEntry old k = some o) (hn : lookupEntry new k = some n) :
    Modification.mk k o n (get_field_changes o n) ∈ (generate_diff old new).1.modified ↔
      isModifiedEntry o n = true := by
  rw [diff_modified_eq]
  constructor
  · intro hmem
    obtain ⟨t, ht, hteq⟩ := List.mem_map.1 hmem
    obtain ⟨htC, hcond⟩ := List.mem_filter.1 ht
    have h2 : t.2.1 = o := congrArg Modification.old hteq
    have h3 : t.2.2 = n := congrArg Modification.new hteq
    rw [h2, h3] at hcond
    exact hcond
  · intro hmod
    refine List.mem_map.2 ⟨(k, o, n), List.mem_filter.2 ⟨?_, hmod⟩, rfl⟩
    exact mem_commonTriples_iff.2 ⟨mem_of_lookupEntry_eq_some hn, ho⟩

theorem mem_deprecated_iff {old new : Snapshot} {k : String} {o n : CPEEntry}
    (hnew : wfSnapshot new) (ho : lookupEntry old k = some o)
    (hn : lookupEntry new k = some n) :
    n ∈ (generate_diff old new).1.deprecated ↔
      (o.deprecated = false ∧ n.deprecated = true) := by
  rw [diff_deprecated_eq]
  constructor
  · intro hmem
    obtain ⟨t, ht, hteq⟩ := List.mem_map.1 hmem
    obtain ⟨ht1, hcond2⟩ := List.mem_filter.1 ht
    obtain ⟨htC, hcond1⟩ := List.mem_filter.1 ht1
    have hte := commonTriple_determined hnew ho hn htC hteq
    rw [hte] at hcond2
    simpa using hcond2
  · rintro ⟨hod, hnd⟩
    have hmod : isModifiedEntry o n = true := by
      simp [isModifiedEntry, hod, hnd]
    refine List.mem_map.2
      ⟨(k, o, n), List.mem_filter.2 ⟨List.mem_filter.2 ⟨?_, hmod⟩, by simp [hod, hnd]⟩, rfl⟩
    exact mem_commonTriples_iff.2 ⟨mem_of_lookupEntry_eq_some hn, ho⟩

/-- C1: for a key present in both snapshots, `generate_diff` reports the
entry unchanged exactly when all four tracked fields (`lastModified`,
`deprecated`, `titles`, `refs`) agree, reports it modified exactly when
one of them differs (untracked fields `created`/`cpeNameId` play no
role), appends it to the deprecated list exactly when the deprecated
flag flips false → true, and the modified/deprecated/unchanged counters
equal the lengths of the corresponding lists. -/
theorem C1_generate_diff_classification
    (old new : Snapshot) (hold : wfSnapshot old) (hnew : wfSnapshot new)
    (k : String) (o n : CPEEntry)
    (ho : lookupEntry old k = some o) (hn : lookupEntry new k = some n) :
    (n ∈ (generate_diff old new).1.unchanged ↔
      (o.lastModified = n.lastModified ∧ o.deprecated = n.deprecated ∧
       o.titles = n.titles ∧ o.refs = n.refs)) ∧
    (Modification.mk k o n (get_field_changes o n) ∈ (generate_diff old new).1.modified ↔
      (o.lastModified ≠ n.lastModified ∨ o.deprecated ≠ n.deprecated ∨
       o.titles ≠ n.titles ∨ o.refs ≠ n.refs)) ∧
    (n ∈ (generate_diff old new).1.deprecated ↔
      (o.deprecated = false ∧ n.deprecated = true)) ∧
    (generate_diff old new).2.modified = (generate_diff old new).1.modified.length ∧
    (generate_diff old new).2.deprecated = (generate_diff old new).1.deprecated.length ∧
    (generate_diff old new).2.unchanged = (generate_diff old new).1.unchanged.length := by
  refine ⟨?_, ?_, mem_deprecated_iff hnew ho hn, rfl, rfl, rfl⟩
  · rw [mem_unchanged_iff hnew ho hn]
    simp only [isModifiedEntry, decide_eq_false_iff_not]
    tauto
  · rw [mem_modified_iff ho hn]
    simp only [isModifiedEntry, decide_eq_true_eq]

/-- Witness for C1: in concrete snapshots where the entry under
`entA.cpeName` changes only untracked fields, the entry is classified
unchanged. -/
theorem C1_witness :
    entA2 ∈ (generate_diff exOldSnap exNewSnap).1.unchanged :=
  (C1_generate_diff_classification exOldSnap exNewSnap (by decide) (by decide)
      entA.cpeName entA entA2 (by decide) (by decide)).1.mpr (by decide)

/-! ### Counting lemmas for C2 -/

theorem stats_added_eq (old new : Snapshot) :
    (generate_diff old new).2.added = (generate_diff old new).1.added.length := rfl

theorem stats_modified_eq (old new : Snapshot) :
    (generate_diff old new).2.modified = (generate_diff old new).1.modified.length := rfl

theorem stats_unchanged_eq (old new : Snapshot) :
    (generate_diff old new).2.unchanged = (generate_diff old new).1.unchanged.length := rfl

theorem commonTriples_length (old new : Snapshot) :
    (commonTriples old new).length
      = (new.filter (fun p => (lookupEntry old p.1).isSome)).length := by
  induction new with
  | nil => rfl
  | cons p t ih =>
    simp only [commonTriples, List.filterMap_cons, List.filter_cons] at *
    cases h : lookupEntry old p.1
    · simpa [h] using ih
    · simpa [h] using ih

theorem mem_diffKeysAdded_iff {old new : Snapshot} (hnew : wfSnapshot new) (k : String) :
    k ∈ diffKeysAdded (generate_diff old new).1 ↔
      lookupEntry old k = none ∧ (lookupEntry new k).isSome = true := by
  unfold diffKeysAdded
  rw [diff_added_eq]
  constructor
  · intro h
    obtain ⟨e, he, hk⟩ := List.mem_map.1 h
    obtain ⟨p, hp, hpe⟩ := List.mem_map.1 he
    obtain ⟨hpnew, hcond⟩ := List.mem_filter.1 hp
    have hkey : p.1 = p.2.cpeName := hnew.2 _ hpnew
    have hk1 : p.1 = k := by rw [hkey, hpe, hk]
    constructor
    · rw [← hk1]
      exact Option.isNone_iff_eq_none.1 (by simpa using hcond)
    · rw [lookupEntry_isSome_iff]
      exact List.mem_map.2 ⟨p, hpnew, hk1⟩
  · rintro ⟨hnone, hsome⟩
    obtain ⟨n, hn⟩ := Option.isSome_iff_exists.1 hsome
    have hmem : (k, n) ∈ new := mem_of_lookupEntry_eq_some hn
    refine List.mem_map.2
      ⟨n, List.mem_map.2 ⟨(k, n), List.mem_filter.2 ⟨hmem, by simp [hnone]⟩, rfl⟩, ?_⟩
    exact (hnew.2 _ hmem).symm

theorem mem_diffKeysRemoved_iff {old new : Snapshot} (hold : wfSnapshot old) (k : String) :
    k ∈ diffKeysRemoved (generate_diff old new).1 ↔
      lookupEntry new k = none ∧ (lookupEntry old k).isSome = true := by
  unfold diffKeysRemoved
  rw [diff_removed_eq]
  constructor
  · intro h
    obtain ⟨e, he, hk⟩ := List.mem_map.1 h
    obtain ⟨p, hp, hpe⟩ := List.mem_map.1 he
    obtain ⟨hpold, hcond⟩ := List.mem_filter.1 hp
    have hkey : p.1 = p.2.cpeName := hold.2 _ hpold
    have hk1 : p.1 = k := by rw [hkey, hpe, hk]
    constructor
    · rw [← hk1]
      exact Option.isNone_iff_eq_none.1 (by simpa using hcond)
    · rw [lookupEntry_isSome_iff]
      exact List.mem_map.2 ⟨p, hpold, hk1⟩
  · rintro ⟨hnone, hsome⟩
    obtain ⟨o, hn⟩ := Option.isSome_iff_exists.1 hsome
    have hmem : (k, o) ∈ old := mem_of_lookupEntry_eq_some hn
    refine List.mem_map.2
      ⟨o, List.mem_map.2 ⟨(k, o), List.mem_filter.2 ⟨hmem, by simp [hnone]⟩, rfl⟩, ?_⟩
    exact (hold.2 _ hmem).symm

theorem mem_diffKeysModified_iff {old new : Snapshot} (hnew : wfSnapshot new) (k : String) :
    k ∈ diffKeysModified (generate_diff old new).1 ↔
      ∃ o n, lookupEntry old k = some o ∧ lookupEntry new k = some n ∧
        isModifiedEntry o n = true := by
  unfold diffKeysModified
  rw [diff_modified_eq]
  constructor
  · intro h
    obtain ⟨m, hm, hk⟩ := List.mem_map.1 h
    obtain ⟨t, ht, hmt⟩ := List.mem_map.1 hm
    obtain ⟨htC, hcond⟩ := List.mem_filter.1 ht
    have ht1 : t.1 = k := by
      rw [← hk]
      exact congrArg Modification.cpeName hmt
    have hc := mem_commonTriples_iff.1 (show (t.1, t.2.1, t.2.2) ∈ commonTriples old new from htC)
    refine ⟨t.2.1, t.2.2, ?_, ?_, hcond⟩
    · rw [← ht1]
      exact hc.2
    · rw [← ht1]
      exact lookupEntry_eq_some_of_mem hnew.1 hc.1
  · rintro ⟨o, n, ho, hn, hmod⟩
    exact List.mem_map.2
      ⟨_, List.mem_map.2 ⟨(k, o, n), List.mem_filter.2
        ⟨mem_commonTriples_iff.2 ⟨mem_of_lookupEntry_eq_some hn, ho⟩, hmod⟩, rfl⟩, rfl⟩

theorem mem_diffKeysUnchanged_iff {old new : Snapshot} (hnew : wfSnapshot new) (k : String) :
    k ∈ diffKeysUnchanged (generate_diff old new).1 ↔
      ∃ o n, lookupEntry old k = some o ∧ lookupEntry new k = some n ∧
        isModifiedEntry o n = false := by
  unfold diffKeysUnchanged
  rw [diff_unchanged_eq]
  constructor
  · intro h
    obtain ⟨e, he, hk⟩ := List.mem_map.1 h
    obtain ⟨t, ht, hte⟩ := List.mem_map.1 he
    obtain ⟨htC, hcond⟩ := List.mem_filter.1 ht
    have hc := mem_commonTriples_iff.1 (show (t.1, t.2.1, t.2.2) ∈ commonTriples old new from htC)
    have hkey : t.1 = t.2.2.cpeName := hnew.2 _ hc.1
    have ht1 : t.1 = k := by rw [hkey, hte, hk]
    refine ⟨t.2.1, t.2.2, ?_, ?_, ?_⟩
    · rw [← ht1]
      exact hc.2
    · rw [← ht1]
      exact lookupEntry_eq_some_of_mem hnew.1 hc.1
    · revert hcond
      cases isModifiedEntry t.2.1 t.2.2 <;> simp
  · rintro ⟨o, n, ho, hn, hmod⟩
    refine List.mem_map.2
      ⟨n, List.mem_map.2 ⟨(k, o, n), List.mem_filter.2
        ⟨mem_commonTriples_iff.2 ⟨mem_of_lookupEntry_eq_some hn, ho⟩, by simp [hmod]⟩, rfl⟩, ?_⟩
    exact (hnew.2 _ (mem_of_lookupEntry_eq_some hn)).symm

/-- C2: `generate_diff` partitions the key space: the added, modified
and unchanged counters sum to the size of the new snapshot, the removed
list has exactly one entry per key of the old snapshot absent from the
new one, and every key of either snapshot lands in exactly one of the
four categories. -/
theorem C2_generate_diff_partition (old new : Snapshot)
    (hold : wfSnapshot old) (hnew : wfSnapshot new) :
    ((generate_diff old new).2.added + (generate_diff old new).2.modified
        + (generate_diff old new).2.unchanged = new.length) ∧
    ((generate_diff old new).1.removed.length
        = ((old.map Prod.fst).filter (fun k => !(new.map Prod.fst).contains k)).length) ∧
    (∀ k, k ∈ old.map Prod.fst ∨ k ∈ new.map Prod.fst →
      exactlyOneOf (k ∈ diffKeysAdded (generate_diff old new).1)
        (k ∈ diffKeysRemoved (generate_diff old new).1)
        (k ∈ diffKeysModified (generate_diff old new).1)
        (k ∈ diffKeysUnchanged (generate_diff old new).1)) := by
  refine ⟨?_, ?_, ?_⟩
  · rw [stats_added_eq, stats_modified_eq, stats_unchanged_eq,
      diff_added_eq, diff_modified_eq, diff_unchanged_eq,
      List.length_map, List.length_map, List.length_map]
    have hmu := length_filter_partition (commonTriples old new)
      (fun t => isModifiedEntry t.2.1 t.2.2)
    have hc := commonTriples_length old new
    have hp : (new.filter (fun p => (lookupEntry old p.1).isNone)).length
        + (new.filter (fun p => (lookupEntry old p.1).isSome)).length = new.length := by
      have hpart := length_filter_partition new (fun p => (lookupEntry old p.1).isNone)
      have he : new.filter (fun p => !(lookupEntry old p.1).isNone)
          = new.filter (fun p => (lookupEntry old p.1).isSome) := by
        apply List.filter_congr
        intro a _
        cases lookupEntry old a.1 <;> rfl
      rwa [he] at hpart
    omega
  · rw [diff_removed_eq, List.length_map, List.filter_map, List.length_map]
    congr 1
    apply List.filter_congr
    intro p _
    show (lookupEntry new p.1).isNone = !(new.map Prod.fst).contains p.1
    rw [Bool.eq_iff_iff]
    simp [Option.isNone_iff_eq_none, lookupEntry_eq_none_iff]
  · intro k hk
    rw [mem_diffKeysAdded_iff hnew, mem_diffKeysRemoved_iff hold,
      mem_diffKeysModified_iff hnew, mem_diffKeysUnchanged_iff hnew]
    cases hO : lookupEntry old k <;> cases hN : lookupEntry new k
    · exfalso
      rcases hk with h | h
      · rw [← lookupEntry_isSome_iff, hO] at h
        simp at h
      · rw [← lookupEntry_isSome_iff, hN] at h
        simp at h
    · left
      refine ⟨⟨rfl, rfl⟩, ?_, ?_, ?_⟩
      · rintro ⟨h1, _⟩
        exact Option.noConfusion h1
      · rintro ⟨o', n', ho', _, _⟩
        exact Option.noConfusion ho'
      · rintro ⟨o', n', ho', _, _⟩
        exact Option.noConfusion ho'
    · right; left
      refine ⟨?_, ⟨rfl, rfl⟩, ?_, ?_⟩
      · rintro ⟨h1, _⟩
        exact Option.noConfusion h1
      · rintro ⟨o', n', _, hn', _⟩
        exact Option.noConfusion hn'
      · rintro ⟨o', n', _, hn', _⟩
        exact Option.noConfusion hn'
    · rename_i o n
      by_cases hm : isModifiedEntry o n = true
      · right; right; left
        refine ⟨?_, ?_, ⟨o, n, rfl, rfl, hm⟩, ?_⟩
        · rintro ⟨h1, _⟩
          exact Option.noConfusion h1
        · rintro ⟨h1, _⟩
          exact Option.noConfusion h1
        · rintro ⟨o', n', ho', hn', hmod'⟩
          rw [← Option.some.inj ho', ← Option.some.inj hn'] at hmod'
          simp [hm] at hmod'
      · right; right; right
        have hm' : isModifiedEntry o n = false := by
          revert hm
          cases isModifiedEntry o n <;> simp
        refine ⟨?_, ?_, ?_, ⟨o, n, rfl, rfl, hm'⟩⟩
        · rintro ⟨h1, _⟩
          exact Option.noConfusion h1
        · rintro ⟨h1, _⟩
          exact Option.noConfusion h1
        · rintro ⟨o', n', ho', hn', hmod'⟩
          rw [← Option.some.inj ho', ← Option.some.inj hn'] at hmod'
          simp [hm'] at hmod'

/-- Witness for C2 on concrete snapshots with one added, one removed,
one unchanged key. -/
theorem C2_witness :
    (generate_diff exOldSnap exNewSnap).2.added + (generate_diff exOldSnap exNewSnap).2.modified
      + (generate_diff exOldSnap exNewSnap).2.unchanged = exNewSnap.length :=
  (C2_generate_diff_partition exOldSnap exNewSnap (by decide) (by decide)).1

/-- C7: for a key present in both snapshots whose `titles` (or `refs`)
lists hold the same elements in a different order while all other
tracked fields agree, `generate_diff` classifies the entry as modified
and not as unchanged: list comparison is order-sensitive. -/
theorem C7_order_sensitive_list_comparison
    (old new : Snapshot) (hold : wfSnapshot old) (hnew : wfSnapshot new)
    (k : String) (o n : CPEEntry)
    (ho : lookupEntry old k = some o) (hn : lookupEntry new k = some n)
    (hlm : o.lastModified = n.lastModified) (hdep : o.deprecated = n.deprecated)
    (hperm : (o.titles.Perm n.titles ∧ o.refs = n.refs ∧ o.titles ≠ n.titles) ∨
             (o.refs.Perm n.refs ∧ o.titles = n.titles ∧ o.refs ≠ n.refs)) :
    Modification.mk k o n (get_field_changes o n) ∈ (generate_diff old new).1.modified ∧
    n ∉ (generate_diff old new).1.unchanged := by
  have hmod : isModifiedEntry o n = true := by
    simp only [isModifiedEntry, decide_eq_true_eq]
    rcases hperm with ⟨_, _, hne⟩ | ⟨_, _, hne⟩
    · exact Or.inr (Or.inr (Or.inl hne))
    · exact Or.inr (Or.inr (Or.inr hne))
  refine ⟨(mem_modified_iff ho hn).2 hmod, ?_⟩
  intro hmem
  have hfalse := (mem_unchanged_iff hnew ho hn).1 hmem
  rw [hmod] at hfalse
  exact Bool.noConfusion hfalse

/-- Witness for C7: permuted titles on the single common key are
reported as a modification. -/
theorem C7_witness :
    Modification.mk entP1.cpeName entP1 entP2 (get_field_changes entP1 entP2)
      ∈ (generate_diff exOldPerm exNewPerm).1.modified :=
  (C7_order_sensitive_list_comparison exOldPerm exNewPerm (by decide) (by decide)
      entP1.cpeName entP1 entP2 (by decide) (by decide) (by decide) (by decide)
      (Or.inl ⟨by decide, by decide, by decide⟩)).1

/-! ### C5: two-tier name search -/

/-- C5: `search_by_tool_name` issues the tier-2 fuzzy query exactly when
the tier-1 exact query reports zero hits (an absent tier-1 result counts
as zero, as in the guard `exact_results and exact_results.get('total', 0) > 0`);
whenever tier 1 reports a positive total its result is returned and the
fuzzy query is never issued. -/
theorem C5_two_tier_name_search (exec : QueryTier → Option SearchResults) :
    (QueryTier.fuzzy ∈ (search_by_tool_name exec).2 ↔ tier1Total exec = 0) ∧
    (0 < tier1Total exec →
      (search_by_tool_name exec).1 = exec QueryTier.exact ∧
      (search_by_tool_name exec).2 = [QueryTier.exact]) := by
  cases h : exec QueryTier.exact
  · have hred : search_by_tool_name exec
        = (exec QueryTier.fuzzy, [QueryTier.exact, QueryTier.fuzzy]) := by
      unfold search_by_tool_name
      rw [h]
    have htot : tier1Total exec = 0 := by
      unfold tier1Total
      rw [h]
    rw [hred, htot]
    simp
  · rename_i r
    have hred : search_by_tool_name exec
        = if 0 < r.total then (some r, [QueryTier.exact])
          else (exec QueryTier.fuzzy, [QueryTier.exact, QueryTier.fuzzy]) := by
      unfold search_by_tool_name
      rw [h]
    have htot : tier1Total exec = r.total := by
      unfold tier1Total
      rw [h]
    rw [hred, htot]
    by_cases ht : 0 < r.total
    · rw [if_pos ht]
      refine ⟨⟨fun hf => ?_, fun h0 => ?_⟩, fun _ => ⟨rfl, rfl⟩⟩
      · simp at hf
      · omega
    · rw [if_neg ht]
      have h0 : r.total = 0 := by omega
      refine ⟨⟨fun _ => h0, fun _ => ?_⟩, fun hpos => absurd hpos (by omega)⟩
      simp

/-- Witness for C5: a tier-1 oracle reporting three hits settles the
search with tier 2 never issued. -/
theorem C5_witness :
    (search_by_tool_name exExec).1 = exExec QueryTier.exact ∧
    (search_by_tool_name exExec).2 = [QueryTier.exact] :=
  (C5_two_tier_name_search exExec).2 (by decide)

/-! ### C6: backup failure in `update_database` -/

/-- C6 counterexample: with `create_diff` set and the backup failed, a
fully successful remainder of the run reports `success = true` (so the
run is indeed not aborted) but produces **no** diff at all — not, as
claimed, a diff reporting every entry of the new snapshot as added. -/
theorem C6_counterexample :
    (update_database none true true exNewSnap true true 1 true).success = true ∧
    (update_database none true true exNewSnap true true 1 true).diff = none := by
  constructor <;> rfl

/-- C6 amended: a backup failure never aborts `update_database` — the
run proceeds exactly as a run with `create_diff` unset (success is
decided solely by the download/json/index steps) — but diff generation
is skipped entirely (`diff = none`) instead of producing an
everything-added diff. -/
theorem C6_amended_backup_failure_skips_diff
    (downloadOk jsonFilesPresent deleteIndexOk createIndexOk : Bool)
    (totalIndexed : Nat) (newEntries : Snapshot) :
    update_database none downloadOk jsonFilesPresent newEntries deleteIndexOk
        createIndexOk totalIndexed true
      = update_database none downloadOk jsonFilesPresent newEntries deleteIndexOk
        createIndexOk totalIndexed false ∧
    (update_database none downloadOk jsonFilesPresent newEntries deleteIndexOk
        createIndexOk totalIndexed true).diff = none ∧
    (update_database none downloadOk jsonFilesPresent newEntries deleteIndexOk
        createIndexOk totalIndexed true).success
      = (downloadOk && jsonFilesPresent && createIndexOk && (totalIndexed != 0)) := by
  unfold update_database
  cases downloadOk <;> cases jsonFilesPresent <;> cases createIndexOk <;>
    by_cases h : totalIndexed = 0 <;> simp [h]

/-! ### C9: `clean_website_url` is not idempotent (code bug) -/

/-- C9: the input `httpd.apache.org` — a real-world website whose host
name begins with the four characters `http` — is not re-parsed with a
scheme, so `urlparse` yields an empty netloc and the function returns
the domain concatenated with the path, i.e. the input doubled; cleaning
the result doubles it again, so `clean_website_url` is not idempotent
(and on such inputs does not clean at all). -/
theorem C9_clean_website_url_not_idempotent :
    clean_website_url "httpd.apache.org" = "httpd.apache.orghttpd.apache.org" ∧
    clean_website_url (clean_website_url "httpd.apache.org")
      ≠ clean_website_url "httpd.apache.org" := by
  constructor
  · decide
  · decide

/-! ### C10: fixed five-slot CSV rows -/

theorem length_flatMap_matchCells (l : List MatchGroup) :
    (l.flatMap matchCells).length = 5 * l.length := by
  induction l with
  | nil => rfl
  | cons m t ih =>
    simp only [List.flatMap_cons, List.length_append, ih, List.length_cons]
    show 5 + 5 * t.length = 5 * (t.length + 1)
    omega

theorem length_flatten_replicate_blank (n : Nat) :
    (List.replicate n blankCells).flatten.length = 5 * n := by
  induction n with
  | zero => rfl
  | succ k ih =>
    simp only [List.replicate_succ, List.flatten_cons, List.length_append, ih]
    show 5 + 5 * k = 5 * (k + 1)
    omega

theorem slots_characterization : ∀ (n : Nat) (ms : List MatchGroup),
    (List.range n).flatMap
        (fun i => match ms.get? i with | some m => matchCells m | none => blankCells)
      = (ms.take n).flatMap matchCells ++ (List.replicate (n - ms.length) blankCells).flatten := by
  intro n
  induction n with
  | zero =>
    intro ms
    simp
  | succ k ih =>
    intro ms
    rw [List.range_succ, List.flatMap_append, ih ms, List.take_succ, List.flatMap_append]
    cases hget : ms.get? k
    · have hlen : ms.length ≤ k := List.get?_eq_none.1 hget
      have hc : k + 1 - ms.length = (k - ms.length) + 1 := by omega
      rw [hc, List.replicate_succ', List.flatten_append]
      rw [List.get?_eq_getElem?] at hget
      simp [List.flatMap_cons, hget, List.append_assoc]
    · rename_i g
      have hlt : k < ms.length := by
        by_contra hge
        rw [List.get?_eq_none.2 (by omega)] at hget
        cases hget
      have hc : k + 1 - ms.length = k - ms.length := by omega
      have hz : k - ms.length = 0 := by omega
      rw [hc]
      rw [List.get?_eq_getElem?] at hget
      simp [List.flatMap_cons, hget, hz, List.append_assoc]

/-- C10: every output row appends the full match count and exactly five
group slots: the first five groups' cells in order, blank five-cell
slots for missing groups, and nothing for groups beyond the fifth —
while the count cell still reports the full number of groups.  The row
always adds exactly 26 cells to the original row. -/
theorem C10_write_result_row_slots (original : List String) (ms : List MatchGroup) :
    write_result_row original ms
      = original ++ [toString ms.length] ++ (ms.take 5).flatMap matchCells
          ++ (List.replicate (5 - ms.length) blankCells).flatten ∧
    (write_result_row original ms).length = original.length + 26 := by
  have h := slots_characterization 5 ms
  have hrow : write_result_row original ms
      = original ++ [toString ms.length] ++ (ms.take 5).flatMap matchCells
          ++ (List.replicate (5 - ms.length) blankCells).flatten := by
    have h' := h
    simp only [blankCells] at h'
    simp only [write_result_row]
    rw [h']
    simp [blankCells, List.append_assoc]
  refine ⟨hrow, ?_⟩
  rw [hrow]
  simp only [List.length_append, List.length_flatMap, List.length_singleton]
  have h1 := length_flatMap_matchCells (ms.take 5)
  have h2 := length_flatten_replicate_blank (5 - ms.length)
  rw [List.length_flatMap] at h1
  have h3 : (ms.take 5).length = min 5 ms.length := List.length_take 5 ms
  omega

/-! ### Shared lemmas about `search_cpe_for_tool` -/

theorem nameBranch_base_spec (ns : String → Option SearchResults) (tool : String) :
    (nameBranch ns tool (ToolSearchResults.mk [] [] [])).combined = nameGroups ns tool ∧
    ∀ g ∈ nameGroups ns tool, g.found_by = "name" := by
  constructor
  · by_cases h : tool = ""
    · simp [nameBranch, nameGroups, h]
    · cases hn : ns tool
      · simp [nameBranch, nameGroups, h, hn]
      · rename_i nr
        by_cases hh : nr.hits = []
        · simp [nameBranch, nameGroups, h, hn, hh]
        · simp [nameBranch, nameGroups, h, hn, hh]
  · intro g hg
    by_cases h : tool = ""
    · simp [nameGroups, h] at hg
    · cases hn : ns tool
      · simp [nameGroups, h, hn] at hg
      · rename_i nr
        by_cases hh : nr.hits = []
        · simp [nameGroups, h, hn, hh] at hg
        · simp only [nameGroups, h, hn, hh, if_true, if_false, ite_not] at hg
          obtain ⟨x, hx1, hx⟩ := List.mem_map.1 hg
          subst hx
          rfl

theorem nameGroups_of_failed_search (tool : String) :
    nameGroups (fun _ => none) tool = [] := by
  unfold nameGroups
  by_cases h : tool ≠ ""
  · rw [if_pos h]
  · rw [if_neg h]

/-- When the website does not settle the row (absent website, failed
search, no hits, or empty grouping), `search_cpe_for_tool` publishes the
name branch's groups. -/
theorem search_fall_through (ws ns : String → Option SearchResults) (tool website : String)
    (hfall : website = "" ∨ websiteGroups ws website = []) :
    (search_cpe_for_tool ws ns tool website).combined = nameGroups ns tool := by
  rcases hfall with hw | hge
  · have hred : search_cpe_for_tool ws ns tool website
        = nameBranch ns tool (ToolSearchResults.mk [] [] []) := by
      simp [search_cpe_for_tool, hw]
    rw [hred]
    exact (nameBranch_base_spec ns tool).1
  · by_cases hw : website = ""
    · have hred : search_cpe_for_tool ws ns tool website
          = nameBranch ns tool (ToolSearchResults.mk [] [] []) := by
        simp [search_cpe_for_tool, hw]
      rw [hred]
      exact (nameBranch_base_spec ns tool).1
    · cases hws : ws (clean_website_url website)
      · have hred : search_cpe_for_tool ws ns tool website
            = nameBranch ns tool (ToolSearchResults.mk [] [] []) := by
          simp [search_cpe_for_tool, hw, hws]
        rw [hred]
        exact (nameBranch_base_spec ns tool).1
      · rename_i wr
        unfold websiteGroups at hge
        rw [hws] at hge
        by_cases hhits : wr.hits = []
        · have hred : search_cpe_for_tool ws ns tool website
              = nameBranch ns tool (ToolSearchResults.mk [] [] []) := by
            simp [search_cpe_for_tool, hw, hws, hhits]
          rw [hred]
          exact (nameBranch_base_spec ns tool).1
        · have hred : search_cpe_for_tool ws ns tool website
              = nameBranch ns tool (ToolSearchResults.mk [] [] []) := by
            simp [search_cpe_for_tool, hw, hws, hhits, hge]
          rw [hred]
          exact (nameBranch_base_spec ns tool).1

/-- When the website search yields at least one group, the result is the
tagged website groups, whatever the name oracle would have said. -/
theorem search_website_settles (ws ns : String → Option SearchResults) (tool website : String)
    (hw : website ≠ "") (hg : websiteGroups ws website ≠ []) :
    search_cpe_for_tool ws ns tool website
      = ToolSearchResults.mk []
          ((websiteGroups ws website).map (fun g => { g with found_by := "website" }))
          ((websiteGroups ws website).map (fun g => { g with found_by := "website" })) := by
  unfold websiteGroups at hg ⊢
  cases hws : ws (clean_website_url website)
  · exact absurd (by rw [hws]; rfl) hg
  · rename_i wr
    rw [hws] at hg
    have hhits : wr.hits ≠ [] := by
      intro hnil
      apply hg
      simp [group_cpe_variants, hnil]
    simp [search_cpe_for_tool, hw, hws, hhits, hg]

/-- C3: website-prioritized matching.  If a website is supplied and the
website search yields at least one group, the row's combined result is
exactly the website groups tagged `found_by = 'website'`, the name-search
results stay empty, and the outcome does not depend on the name oracle
at all (the name search is never issued); otherwise the row falls
through to the name search and carries only `found_by = 'name'` groups. -/
theorem C3_website_priority (ws ns ns2 : String → Option SearchResults)
    (tool website : String) :
    (website ≠ "" → websiteGroups ws website ≠ [] →
      ((search_cpe_for_tool ws ns tool website).combined
          = (websiteGroups ws website).map (fun g => { g with found_by := "website" }) ∧
       (search_cpe_for_tool ws ns tool website).by_name = [] ∧
       (∀ g ∈ (search_cpe_for_tool ws ns tool website).combined, g.found_by = "website") ∧
       search_cpe_for_tool ws ns tool website = search_cpe_for_tool ws ns2 tool website)) ∧
    ((website = "" ∨ websiteGroups ws website = []) →
      ((search_cpe_for_tool ws ns tool website).combined = nameGroups ns tool ∧
       ∀ g ∈ (search_cpe_for_tool ws ns tool website).combined, g.found_by = "name")) := by
  constructor
  · intro hw hg
    have hs := search_website_settles ws ns tool website hw hg
    have hs2 := search_website_settles ws ns2 tool website hw hg
    refine ⟨by rw [hs], by rw [hs], ?_, by rw [hs, hs2]⟩
    intro g hgm
    rw [hs] at hgm
    obtain ⟨x, _, hx⟩ := List.mem_map.1 hgm
    rw [← hx]
  · intro hfall
    have hc := search_fall_through ws ns tool website hfall
    refine ⟨hc, ?_⟩
    intro g hgm
    rw [hc] at hgm
    exact (nameBranch_base_spec ns tool).2 g hgm

/-- Witness for C3: with a website oracle that finds `exRes2`, the search
outcome is identical under two different name oracles. -/
theorem C3_witness :
    search_cpe_for_tool exWS exNS "tool" "https://example.com"
      = search_cpe_for_tool exWS exNSfail "tool" "https://example.com" :=
  ((C3_website_priority exWS exNS exNSfail "tool" "https://example.com").1
    (by decide) (by decide)).2.2.2

/-- C8: backend query failures surface as absent results, never as
faults: `_execute_search` maps a raised backend error to `none`; a
failed website search makes the matcher fall through to the name
search; and when the name search also fails (and the website did not
settle the row) the row is left unmatched (`combined = []`). -/
theorem C8_absent_result_on_failure :
    (∀ e : String, «_execute_search» (Except.error e) = none) ∧
    (∀ (ns : String → Option SearchResults) (tool website : String),
      (search_cpe_for_tool (fun _ => none) ns tool website).combined = nameGroups ns tool) ∧
    (∀ (ws : String → Option SearchResults) (tool website : String),
      website = "" ∨ websiteGroups ws website = [] →
      (search_cpe_for_tool ws (fun _ => none) tool website).combined = []) := by
  refine ⟨fun e => rfl, ?_, ?_⟩
  · intro ns tool website
    apply search_fall_through
    right
    rfl
  · intro ws tool website hfall
    rw [search_fall_through ws (fun _ => none) tool website hfall]
    exact nameGroups_of_failed_search tool

/-- Witness for C8: a failing website oracle falls through to the name
branch, and with both oracles failing the row is unmatched. -/
theorem C8_witness :
    (search_cpe_for_tool (fun _ => none) exNS "tool" "https://example.com").combined
        = nameGroups exNS "tool" ∧
    (search_cpe_for_tool exWS (fun _ => none) "tool" "").combined = [] :=
  ⟨C8_absent_result_on_failure.2.1 exNS "tool" "https://example.com",
   C8_absent_result_on_failure.2.2 exWS "tool" "" (Or.inl rfl)⟩

/-! ### Lemmas about `splitChar`, component extraction, and `pySort` -/

theorem splitChar_ne_nil (sep : Char) (l : List Char) : splitChar sep l ≠ [] := by
  induction l with
  | nil => simp [splitChar]
  | cons c cs ih =>
    simp only [splitChar]
    by_cases h : c = sep
    · simp [h]
    · rw [if_neg h]
      cases hr : splitChar sep cs
      · exact absurd hr ih
      · simp

theorem not_mem_of_mem_splitChar {sep : Char} : ∀ {l chunk : List Char},
    chunk ∈ splitChar sep l → sep ∉ chunk := by
  intro l
  induction l with
  | nil =>
    intro chunk h
    simp [splitChar] at h
    subst h
    simp
  | cons c cs ih =>
    intro chunk h
    simp only [splitChar] at h
    by_cases hc : c = sep
    · rw [if_pos hc] at h
      rcases List.mem_cons.1 h with h1 | h1
      · subst h1
        simp
      · exact ih h1
    · rw [if_neg hc] at h
      cases hr : splitChar sep cs with
      | nil => exact absurd hr (splitChar_ne_nil sep cs)
      | cons hd tl =>
        rw [hr] at h
        rcases List.mem_cons.1 h with h1 | h1
        · subst h1
          intro hmem
          rcases List.mem_cons.1 hmem with h2 | h2
          · exact hc h2.symm
          · exact ih (by rw [hr]; exact List.mem_cons_self hd tl) h2
        · exact ih (by rw [hr]; exact List.mem_cons_of_mem hd h1)

theorem mem_pySplitColon_no_colon {s x : String} (h : x ∈ pySplitColon s) :
    ':' ∉ x.data := by
  unfold pySplitColon at h
  obtain ⟨chunk, hc, hx⟩ := List.mem_map.1 h
  rw [← hx]
  exact not_mem_of_mem_splitChar hc

theorem extract_eq_some_iff {c : String} {t : String × String × String} :
    extract_cpe_components c = some t ↔
      6 ≤ (pySplitColon c).length ∧
      t = ((pySplitColon c).getD 3 "", (pySplitColon c).getD 4 "", (pySplitColon c).getD 5 "") := by
  unfold extract_cpe_components
  by_cases h : 6 ≤ (pySplitColon c).length
  · rw [if_pos h]
    constructor
    · intro he
      exact ⟨h, (Option.some.inj he).symm⟩
    · rintro ⟨_, ht⟩
      rw [ht]
  · rw [if_neg h]
    constructor
    · intro he
      cases he
    · rintro ⟨h6, _⟩
      exact absurd h6 h

theorem extract_components_no_colon {c v p ver : String}
    (h : extract_cpe_components c = some (v, p, ver)) :
    ':' ∉ v.data ∧ ':' ∉ p.data := by
  obtain ⟨h6, ht⟩ := extract_eq_some_iff.1 h
  have h3 : (pySplitColon c).getD 3 "" ∈ pySplitColon c := by
    rw [List.getD_eq_getElem _ _ (by omega)]
    exact List.getElem_mem _
  have h4 : (pySplitColon c).getD 4 "" ∈ pySplitColon c := by
    rw [List.getD_eq_getElem _ _ (by omega)]
    exact List.getElem_mem _
  have hv : v = (pySplitColon c).getD 3 "" := congrArg Prod.fst ht
  have hp : p = (pySplitColon c).getD 4 "" := congrArg (fun x => x.2.1) ht
  constructor
  · rw [hv]
    exact mem_pySplitColon_no_colon h3
  · rw [hp]
    exact mem_pySplitColon_no_colon h4

theorem append_sep_inj {sep : Char} : ∀ {v1 p1 v2 p2 : List Char},
    sep ∉ v1 → sep ∉ v2 → v1 ++ sep :: p1 = v2 ++ sep :: p2 → v1 = v2 ∧ p1 = p2 := by
  intro v1
  induction v1 with
  | nil =>
    intro p1 v2 p2 h1 h2 heq
    cases v2 with
    | nil => simpa using heq
    | cons c t =>
      simp only [List.nil_append, List.cons_append, List.cons.injEq] at heq
      exact absurd (show sep ∈ c :: t by rw [heq.1]; exact List.mem_cons_self c t) h2
  | cons a t ih =>
    intro p1 v2 p2 h1 h2 heq
    cases v2 with
    | nil =>
      simp only [List.nil_append, List.cons_append, List.cons.injEq] at heq
      exact absurd (show sep ∈ a :: t by rw [← heq.1]; exact List.mem_cons_self a t) h1
    | cons b t2 =>
      simp only [List.cons_append, List.cons.injEq] at heq
      obtain ⟨hab, hrest⟩ := heq
      have h1' : sep ∉ t := fun hm => h1 (List.mem_cons_of_mem a hm)
      have h2' : sep ∉ t2 := fun hm => h2 (List.mem_cons_of_mem b hm)
      obtain ⟨he1, he2⟩ := ih h1' h2' hrest
      exact ⟨by rw [hab, he1], he2⟩

theorem groupKey_inj {v1 p1 v2 p2 : String}
    (h1 : ':' ∉ v1.data) (h2 : ':' ∉ v2.data)
    (h : groupKey v1 p1 = groupKey v2 p2) : v1 = v2 ∧ p1 = p2 := by
  unfold groupKey at h
  have hd : v1.data ++ ':' :: p1.data = v2.data ++ ':' :: p2.data := congrArg String.data h
  obtain ⟨hv, hp⟩ := append_sep_inj h1 h2 hd
  exact ⟨String.ext hv, String.ext hp⟩

theorem lexLe_total : ∀ a b : List Char, lexLe a b = true ∨ lexLe b a = true := by
  intro a
  induction a with
  | nil =>
    intro b
    left
    rfl
  | cons x xs ih =>
    intro b
    cases b with
    | nil =>
      right
      rfl
    | cons y ys =>
      simp only [lexLe]
      by_cases h1 : x.toNat < y.toNat
      · left
        rw [if_pos h1]
      · by_cases h2 : y.toNat < x.toNat
        · right
          rw [if_pos h2]
        · rcases ih ys with h | h
          · left
            rw [if_neg h1, if_neg h2]
            exact h
          · right
            rw [if_neg h2, if_neg h1]
            exact h

theorem lexLe_trans : ∀ a b c : List Char,
    lexLe a b = true → lexLe b c = true → lexLe a c = true := by
  intro a
  induction a with
  | nil =>
    intro b c _ _
    rfl
  | cons x xs ih =>
    intro b c hab hbc
    cases b with
    | nil => simp [lexLe] at hab
    | cons y ys =>
      cases c with
      | nil => simp [lexLe] at hbc
      | cons z zs =>
        simp only [lexLe] at hab hbc ⊢
        by_cases hxy : x.toNat < y.toNat
        · by_cases hyz : y.toNat < z.toNat
          · rw [if_pos (show x.toNat < z.toNat by omega)]
          · by_cases hzy : z.toNat < y.toNat
            · rw [if_neg hyz, if_pos hzy] at hbc
              exact Bool.noConfusion hbc
            · rw [if_pos (show x.toNat < z.toNat by omega)]
        · by_cases hyx : y.toNat < x.toNat
          · rw [if_neg hxy, if_pos hyx] at hab
            exact Bool.noConfusion hab
          · rw [if_neg hxy, if_neg hyx] at hab
            by_cases hyz : y.toNat < z.toNat
            · rw [if_pos (show x.toNat < z.toNat by omega)]
            · by_cases hzy : z.toNat < y.toNat
              · rw [if_neg hyz, if_pos hzy] at hbc
                exact Bool.noConfusion hbc
              · rw [if_neg hyz, if_neg hzy] at hbc
                rw [if_neg (show ¬x.toNat < z.toNat by omega),
                  if_neg (show ¬z.toNat < x.toNat by omega)]
                exact ih ys zs hab hbc

theorem pyLe_total (a b : String) : pyLe a b = true ∨ pyLe b a = true :=
  lexLe_total a.data b.data

theorem pyLe_trans {a b c : String} (h1 : pyLe a b = true) (h2 : pyLe b c = true) :
    pyLe a c = true :=
  lexLe_trans _ _ _ h1 h2

theorem mem_insertSorted {v a : String} : ∀ {l : List String},
    a ∈ insertSorted v l ↔ a = v ∨ a ∈ l := by
  intro l
  induction l with
  | nil => simp [insertSorted]
  | cons x xs ih =>
    simp only [insertSorted]
    by_cases h : pyLe v x = true
    · rw [if_pos h]
      simp only [List.mem_cons]
    · rw [if_neg h]
      simp only [List.mem_cons, ih]
      tauto

theorem mem_pySort {a : String} : ∀ {l : List String}, a ∈ pySort l ↔ a ∈ l := by
  intro l
  induction l with
  | nil => simp [pySort]
  | cons x xs ih =>
    show a ∈ insertSorted x (pySort xs) ↔ _
    rw [mem_insertSorted]
    simp only [List.mem_cons, ih]

theorem length_insertSorted (v : String) : ∀ (l : List String),
    (insertSorted v l).length = l.length + 1 := by
  intro l
  induction l with
  | nil => rfl
  | cons x xs ih =>
    simp only [insertSorted]
    by_cases h : pyLe v x = true
    · rw [if_pos h]
      rfl
    · rw [if_neg h]
      simp [ih]

theorem length_pySort : ∀ (l : List String), (pySort l).length = l.length := by
  intro l
  induction l with
  | nil => rfl
  | cons x xs ih =>
    show (insertSorted x (pySort xs)).length = _
    rw [length_insertSorted, ih]
    rfl

theorem sorted_insertSorted (v : String) : ∀ {l : List String},
    List.Pairwise (fun a b => pyLe a b = true) l →
    List.Pairwise (fun a b => pyLe a b = true) (insertSorted v l) := by
  intro l
  induction l with
  | nil =>
    intro _
    simp [insertSorted]
  | cons x xs ih =>
    intro hs
    obtain ⟨hx, hxs⟩ := List.pairwise_cons.1 hs
    simp only [insertSorted]
    by_cases h : pyLe v x = true
    · rw [if_pos h]
      refine List.pairwise_cons.2 ⟨?_, hs⟩
      intro b hb
      rcases List.mem_cons.1 hb with h1 | h1
      · rw [h1]
        exact h
      · exact pyLe_trans h (hx b h1)
    · rw [if_neg h]
      have hvx : pyLe x v = true := by
        rcases pyLe_total v x with h1 | h1
        · exact absurd h1 h
        · exact h1
      refine List.pairwise_cons.2 ⟨?_, ih hxs⟩
      intro b hb
      rcases mem_insertSorted.1 hb with h1 | h1
      · rw [h1]
        exact hvx
      · exact hx b h1

theorem sorted_pySort : ∀ (l : List String),
    List.Pairwise (fun a b => pyLe a b = true) (pySort l) := by
  intro l
  induction l with
  | nil => simp [pySort]
  | cons x xs ih =>
    show List.Pairwise _ (insertSorted x (pySort xs))
    exact sorted_insertSorted x ih

/-! ### Invariants of the grouping fold -/

theorem insertVersion_ne_nil (vs : List String) (v : String) : insertVersion vs v ≠ [] := by
  unfold insertVersion
  by_cases h : v ∈ vs
  · rw [if_pos h]
    intro hn
    rw [hn] at h
    exact List.not_mem_nil v h
  · rw [if_neg h]
    simp

theorem mem_insertVersion {vs : List String} {v a : String} :
    a ∈ insertVersion vs v ↔ a ∈ vs ∨ a = v := by
  unfold insertVersion
  by_cases h : v ∈ vs
  · rw [if_pos h]
    constructor
    · exact Or.inl
    · rintro (h1 | h1)
      · exact h1
      · rw [h1]
        exact h
  · rw [if_neg h]
    simp [List.mem_append]

theorem updateGroups_keys (key : String) (comp : String × String × String) (hit : Hit) :
    ∀ groups : List (String × GroupData),
    (updateGroups groups key comp hit).map Prod.fst
      = if key ∈ groups.map Prod.fst then groups.map Prod.fst
        else groups.map Prod.fst ++ [key] := by
  intro groups
  induction groups with
  | nil => simp [updateGroups]
  | cons q rest ih =>
    obtain ⟨k, g⟩ := q
    simp only [updateGroups]
    by_cases hk : k = key
    · rw [if_pos hk]
      rw [if_pos (by rw [List.map_cons, hk]; exact List.mem_cons_self key _)]
      simp
    · rw [if_neg hk]
      simp only [List.map_cons]
      rw [ih]
      by_cases hmem : key ∈ rest.map Prod.fst
      · rw [if_pos hmem, if_pos (List.mem_cons_of_mem k hmem)]
      · rw [if_neg hmem, if_neg ?hnm]
        case hnm =>
          intro hmem2
          rcases List.mem_cons.1 hmem2 with h1 | h1
          · exact hk h1.symm
          · exact hmem h1
        rfl

theorem updateGroups_inv {hits : List Hit} {cv cp cver : String} {hit : Hit} :
    ∀ {groups : List (String × GroupData)},
    GroupsInv hits groups → hit ∈ hits → hit.deprecated = false →
    extract_cpe_components hit.cpeName = some (cv, cp, cver) →
    GroupsInv hits (updateGroups groups (groupKey cv cp) (cv, cp, cver) hit) := by
  intro groups
  induction groups with
  | nil =>
    intro hg hh hd hex
    refine ⟨by simp [updateGroups], ?_⟩
    intro p hp
    simp only [updateGroups] at hp
    have hpe : p = (groupKey cv cp, GroupData.mk cv cp [cver] [hit] hit) :=
      List.mem_singleton.1 hp
    subst hpe
    refine ⟨rfl, ⟨[], rfl⟩, ?_, ?_, by simp⟩
    · intro h hmem
      have he : h = hit := List.mem_singleton.1 hmem
      subst he
      exact ⟨hh, hd, cver, hex, List.mem_singleton.2 rfl⟩
    · intro v hv
      have hv2 : v = cver := List.mem_singleton.1 hv
      subst hv2
      exact ⟨hit, List.mem_singleton.2 rfl, hex⟩
  | cons q rest ih =>
    intro hg hh hd hex
    obtain ⟨k, g⟩ := q
    obtain ⟨hnd, hall⟩ := hg
    rw [List.map_cons] at hnd
    have hnd2 := List.nodup_cons.1 hnd
    have hhead := hall (k, g) (List.mem_cons_self _ _)
    obtain ⟨hkey, hgdi⟩ := hhead
    dsimp only at hnd hnd2 hkey hgdi
    simp only [updateGroups]
    by_cases hk : k = groupKey cv cp
    · rw [if_pos hk]
      obtain ⟨⟨restc, hsample⟩, hcpes, hvers, hvne⟩ := hgdi
      have hs_mem : g.sample_cpe ∈ g.cpes := by
        rw [hsample]
        exact List.mem_cons_self _ _
      obtain ⟨_, _, vs, hexs, _⟩ := hcpes g.sample_cpe hs_mem
      have hgfree := extract_components_no_colon hexs
      have hcfree := extract_components_no_colon hex
      obtain ⟨hv1, hp1⟩ :=
        groupKey_inj hcfree.1 hgfree.1 (by rw [← hk, hkey] : groupKey cv cp = groupKey g.vendor g.product)
      have hex2 : extract_cpe_components hit.cpeName = some (g.vendor, g.product, cver) := by
        rw [← hv1, ← hp1]
        exact hex
      constructor
      · rw [List.map_cons]
        exact hnd
      · intro p hp
        rcases List.mem_cons.1 hp with h1 | h1
        · subst h1
          refine ⟨hkey, ⟨restc ++ [hit], by rw [hsample]; rfl⟩, ?_, ?_, insertVersion_ne_nil _ _⟩
          · intro h hmem
            rcases List.mem_append.1 hmem with h2 | h2
            · obtain ⟨hin, hdep, v, hexh, hvm⟩ := hcpes h h2
              exact ⟨hin, hdep, v, hexh, mem_insertVersion.2 (Or.inl hvm)⟩
            · have he : h = hit := List.mem_singleton.1 h2
              subst he
              exact ⟨hh, hd, cver, hex2, mem_insertVersion.2 (Or.inr rfl)⟩
          · intro v hv
            rcases mem_insertVersion.1 hv with h2 | h2
            · obtain ⟨h, hmem2, hexh⟩ := hvers v h2
              exact ⟨h, List.mem_append.2 (Or.inl hmem2), hexh⟩
            · subst h2
              exact ⟨hit, List.mem_append.2 (Or.inr (List.mem_singleton.2 rfl)), hex2⟩
        · exact hall p (List.mem_cons_of_mem _ h1)
    · rw [if_neg hk]
      have hgrest : GroupsInv hits rest :=
        ⟨hnd2.2, fun p hp => hall p (List.mem_cons_of_mem _ hp)⟩
      have hrec := ih hgrest hh hd hex
      constructor
      · rw [List.map_cons, updateGroups_keys]
        by_cases hmem : groupKey cv cp ∈ rest.map Prod.fst
        · rw [if_pos hmem]
          exact hnd
        · rw [if_neg hmem]
          refine List.nodup_cons.2 ⟨?_, ?_⟩
          · intro hmem2
            rcases List.mem_append.1 hmem2 with h2 | h2
            · exact hnd2.1 h2
            · exact hk (List.mem_singleton.1 h2)
          · rw [List.nodup_append]
            refine ⟨hnd2.2, List.nodup_singleton _, ?_⟩
            intro a ha hb
            have ha2 : a = groupKey cv cp := List.mem_singleton.1 hb
            subst ha2
            exact hmem ha
      · intro p hp
        rcases List.mem_cons.1 hp with h1 | h1
        · subst h1
          exact ⟨hkey, hgdi⟩
        · exact hrec.2 p h1

theorem buildGroups_foldl_inv (hits : List Hit) : ∀ (l : List Hit)
    (groups : List (String × GroupData)),
    (∀ h ∈ l, h ∈ hits ∧ h.deprecated = false) → GroupsInv hits groups →
    GroupsInv hits (l.foldl (fun gs hit =>
      match extract_cpe_components hit.cpeName with
      | none => gs
      | some comp => updateGroups gs (groupKey comp.1 comp.2.1) comp hit) groups) := by
  intro l
  induction l with
  | nil =>
    intro groups _ hg
    exact hg
  | cons h t ih =>
    intro groups hl hg
    rw [List.foldl_cons]
    apply ih
    · intro x hx
      exact hl x (List.mem_cons_of_mem _ hx)
    · show GroupsInv hits (match extract_cpe_components h.cpeName with
        | none => groups
        | some comp => updateGroups groups (groupKey comp.1 comp.2.1) comp h)
      cases hex : extract_cpe_components h.cpeName with
      | none => exact hg
      | some comp =>
        obtain ⟨cv, cp, cver⟩ := comp
        have hm := hl h (List.mem_cons_self _ _)
        exact updateGroups_inv hg hm.1 hm.2 hex

theorem buildGroups_inv (hits : List Hit) (l : List Hit)
    (hl : ∀ h ∈ l, h ∈ hits ∧ h.deprecated = false) :
    GroupsInv hits (buildGroups l) :=
  buildGroups_foldl_inv hits l []
    hl ⟨List.nodup_nil, fun p hp => absurd hp (List.not_mem_nil p)⟩

theorem finalize_vendor (g : GroupData) : (finalizeGroup g).vendor = g.vendor := by
  unfold finalizeGroup
  by_cases h : 1 < g.versions.length ∨ "*" ∈ g.versions
  · rw [if_pos h]
  · rw [if_neg h]

theorem finalize_product (g : GroupData) : (finalizeGroup g).product = g.product := by
  unfold finalizeGroup
  by_cases h : 1 < g.versions.length ∨ "*" ∈ g.versions
  · rw [if_pos h]
  · rw [if_neg h]

theorem buildGroups_pairs_nodup {hits : List Hit} {groups : List (String × GroupData)}
    (hg : GroupsInv hits groups) :
    (groups.map (fun p => (p.2.vendor, p.2.product))).Nodup := by
  obtain ⟨hnd, hall⟩ := hg
  have h1 : groups.Pairwise (fun a b => a.1 ≠ b.1) := List.pairwise_map.1 hnd
  have h2 : groups.Pairwise
      (fun a b => (a.2.vendor, a.2.product) ≠ (b.2.vendor, b.2.product)) := by
    refine List.Pairwise.imp_of_mem ?_ h1
    intro a b ha hb hne heq
    have hka := (hall a ha).1
    have hkb := (hall b hb).1
    apply hne
    rw [hka, hkb]
    have hv : a.2.vendor = b.2.vendor := congrArg Prod.fst heq
    have hp : a.2.product = b.2.product := congrArg Prod.snd heq
    rw [hv, hp]
  exact List.pairwise_map.2 h2

theorem finalizeGroup_ok {hits : List Hit} {g : GroupData} (hinv : GDInv hits g) :
    GroupOK hits (finalizeGroup g) := by
  obtain ⟨⟨restc, hsample⟩, hcpes, hvers, hvne⟩ := hinv
  have hs_mem : g.sample_cpe ∈ g.cpes := by
    rw [hsample]
    exact List.mem_cons_self _ _
  obtain ⟨hsin, hsdep, vs, hexs, hvs⟩ := hcpes g.sample_cpe hs_mem
  have h6 : 6 ≤ (pySplitColon g.sample_cpe.cpeName).length := (extract_eq_some_iff.1 hexs).1
  by_cases hcond : 1 < g.versions.length ∨ "*" ∈ g.versions
  · have hfg : finalizeGroup g
        = MatchGroup.mk (normalize_cpe_for_comparison g.sample_cpe.cpeName)
            g.vendor g.product g.versions.length (pySort g.versions)
            (g.cpes.map (fun c => c.cpeName)) g.sample_cpe "" := by
      unfold finalizeGroup
      rw [if_pos hcond]
    rw [hfg]
    refine ⟨?_, ?_, ?_, ?_, ?_⟩
    · dsimp only
      rw [hsample]
      simp
    · dsimp only
      intro c hc
      obtain ⟨h, hm, hce⟩ := List.mem_map.1 hc
      obtain ⟨hin, hdep, v, hexh, hvm⟩ := hcpes h hm
      exact ⟨⟨h, hin, hdep, hce⟩, v, by rw [← hce]; exact hexh, mem_pySort.2 hvm⟩
    · dsimp only
      intro v hv
      obtain ⟨h, hm, hexh⟩ := hvers v (mem_pySort.1 hv)
      exact ⟨h.cpeName, List.mem_map.2 ⟨h, hm, rfl⟩, hexh⟩
    · dsimp only
      exact (length_pySort _).symm
    · dsimp only
      rw [if_pos ?hc2]
      case hc2 =>
        rcases hcond with h1 | h1
        · exact Or.inl h1
        · exact Or.inr (mem_pySort.2 h1)
      refine ⟨h6, ?_, ?_, sorted_pySort _⟩
      · unfold normalize_cpe_for_comparison
        rw [if_pos h6]
      · exact List.mem_map.2 ⟨g.sample_cpe, hs_mem, rfl⟩
  · have hlen1 : g.versions.length = 1 := by
      have hpos : 0 < g.versions.length := List.length_pos.2 hvne
      push_neg at hcond
      omega
    obtain ⟨v0, hv0⟩ := List.length_eq_one.1 hlen1
    have hfg : finalizeGroup g
        = MatchGroup.mk g.sample_cpe.cpeName g.vendor g.product 1
            g.versions [g.sample_cpe.cpeName] g.sample_cpe "" := by
      unfold finalizeGroup
      rw [if_neg hcond, hsample]
      rfl
    rw [hfg]
    refine ⟨by simp, ?_, ?_, ?_, ?_⟩
    · dsimp only
      intro c hc
      have hce : c = g.sample_cpe.cpeName := List.mem_singleton.1 hc
      subst hce
      exact ⟨⟨g.sample_cpe, hsin, hsdep, rfl⟩, vs, hexs, hvs⟩
    · dsimp only
      intro v hv
      rw [hv0] at hv hvs
      have hvv : v = v0 := List.mem_singleton.1 hv
      have hvsv : vs = v0 := List.mem_singleton.1 hvs
      subst hvv
      refine ⟨g.sample_cpe.cpeName, List.mem_singleton.2 rfl, ?_⟩
      rw [← hvsv]
      exact hexs
    · dsimp only
      exact hlen1.symm
    · dsimp only
      rw [if_neg ?hc3]
      case hc3 =>
        rintro (h1 | h1)
        · omega
        · exact hcond (Or.inr h1)
      exact ⟨rfl, rfl, rfl⟩

/-- C4: `group_cpe_variants` discards deprecated hits, skips identifiers
with fewer than 6 colon-separated components, buckets the rest by
(vendor, product) — one emitted group per bucket, all of whose entries
share the bucket's vendor and product — and, when a bucket holds more
than one distinct version or a wildcard version, emits a single group
whose representative is the sample identifier with its version component
set to `*`, with all observed versions sorted ascending and every
contributing identifier listed; otherwise the single concrete identifier
is the representative with `version_count = 1`. -/
theorem C4_group_cpe_variants_spec (cpe_results : Option SearchResults) :
    ((group_cpe_variants cpe_results).map (fun g => (g.vendor, g.product))).Nodup ∧
    ∀ g ∈ group_cpe_variants cpe_results, GroupOK (resultHits cpe_results) g := by
  cases cpe_results with
  | none =>
    exact ⟨List.nodup_nil, fun g hg => absurd hg (List.not_mem_nil g)⟩
  | some res =>
    by_cases hh : res.hits = []
    · have hred : group_cpe_variants (some res) = [] := by
        simp [group_cpe_variants, hh]
      rw [hred]
      exact ⟨List.nodup_nil, fun g hg => absurd hg (List.not_mem_nil g)⟩
    · by_cases ha : res.hits.filter (fun h => !h.deprecated) = []
      · have hred : group_cpe_variants (some res) = [] := by
          simp [group_cpe_variants, hh, ha]
        rw [hred]
        exact ⟨List.nodup_nil, fun g hg => absurd hg (List.not_mem_nil g)⟩
      · have hred : group_cpe_variants (some res)
            = (buildGroups (res.hits.filter (fun h => !h.deprecated))).map
                (fun p => finalizeGroup p.2) := by
          simp [group_cpe_variants, hh, ha]
        have hinv : GroupsInv res.hits
            (buildGroups (res.hits.filter (fun h => !h.deprecated))) := by
          apply buildGroups_inv
          intro h hm
          have hmf := List.mem_filter.1 hm
          exact ⟨hmf.1, by simpa using hmf.2⟩
        constructor
        · rw [hred, List.map_map]
          have hfun : ((fun g : MatchGroup => (g.vendor, g.product))
                ∘ (fun p : String × GroupData => finalizeGroup p.2))
              = fun p : String × GroupData => (p.2.vendor, p.2.product) := by
            funext p
            show ((finalizeGroup p.2).vendor, (finalizeGroup p.2).product) = _
            rw [finalize_vendor, finalize_product]
          rw [hfun]
          exact buildGroups_pairs_nodup hinv
        · intro g hg
          rw [hred] at hg
          obtain ⟨p, hp, hpe⟩ := List.mem_map.1 hg
          have hgd := (hinv.2 p hp).2
          have hok := finalizeGroup_ok hgd
          rw [← hpe]
          exact hok

/-- Witness for C4: on a concrete two-version result the emitted group's
version count equals the number of recorded versions. -/
theorem C4_witness : exGroupStar.version_count = exGroupStar.versions.length :=
  ((C4_group_cpe_variants_spec (some exRes2)).2 exGroupStar (by decide)).2.2.2.1
